import Mathlib


namespace PyTensor

/-!
# Verification of the pytensor function-compilation core

Shallow embedding of `pytensor/compile/function/types.py` (graph preparation,
aliasing analysis, defensive-copy insertion, the `Function` call wrapper and
`FunctionMaker`), with theorems checking the natural-language specification
against the code.

Variables of a computation graph are identified by natural numbers.  Runtime
values are abstract (`Val := Nat`); external collaborators that live outside
the embedded module (`Type.may_share_memory`, `copy.copy`, the destroy
handler's `has_destroyers`, the linked VM) are passed as function parameters,
mirroring how the Python code treats them as opaque.
-/
/-! ## Generic bounded closure machinery

`view_tree_set` and `graph_inputs` in the source compute transitive closures
over a finite graph.  We embed them as fueled saturations of a monotone
expansion operator over `Finset Nat`; with fuel at least the cardinality of a
closed universe the iteration reaches the least fixed point, which is proved
below and reused to compare closures of a graph before and after node
insertions. -/
def expandF (f : Nat → Finset Nat) (s : Finset Nat) : Finset Nat :=
  s ∪ s.biUnion f

/-! ## Graph data model

An `Apply` node carries an op's `view_map` and `destroy_map` (association
lists from output position to the list of input positions, modelling the
Python dicts), its input variables and its output variables.  An `FGraph`
holds the declared (fgraph) inputs, the current outputs and the apply nodes.
Variables are `Nat` identifiers. -/

/-- `dict.get(k, default=None)` on an association list. -/
def dictGet (m : List (Nat × List Nat)) (k : Nat) : Option (List Nat) :=
  (m.find? (fun p => p.1 == k)).map (·.2)

structure OpMaps where
  view_map : List (Nat × List Nat)
  destroy_map : List (Nat × List Nat)
deriving DecidableEq, Repr

structure Apply where
  op : OpMaps
  inputs : List Nat
  outputs : List Nat
deriving DecidableEq, Repr

structure FGraph where
  fInputs : List Nat
  outputs : List Nat
  nodes : List Apply
deriving DecidableEq, Repr

/-- `v.owner` together with `v.owner.outputs.index(v)`: the first apply node
having `v` among its outputs, and `v`'s (first) position in it. -/
def ownerOf (g : FGraph) (v : Nat) : Option (Apply × Nat) :=
  match g.nodes.find? (fun n => n.outputs.contains v) with
  | some n =>
    match n.outputs.indexOf? v with
    | some i => some (n, i)
    | none => none
  | none => none

/-- `vmap.get(outpos, []) + dmap.get(outpos, [])` from `alias_root`. -/
def vViewsAt (op : OpMaps) (outpos : Nat) : List Nat :=
  (dictGet op.view_map outpos).getD [] ++ (dictGet op.destroy_map outpos).getD []

/-- Result of `alias_root`: a root variable, the `NotImplementedError` raised
when an output position is a view/destroyed version of more than one input
position, a malformed input index (an `IndexError` in Python), or fuel
exhaustion (the Python function would recurse forever only on cyclic owner
chains, which cannot occur in a `FunctionGraph`). -/
inductive AliasRes where
  | ok (v : Nat)
  | multi (v : Nat)
  | badIndex
  | noFuel
deriving DecidableEq, Repr

/-- `alias_root(v)`: walk backward through view/destroy maps one hop at a
time. -/
def alias_root (g : FGraph) : Nat → Nat → AliasRes
  | 0, _ => .noFuel
  | fuel + 1, v =>
    match ownerOf g v with
    | none => .ok v
    | some (node, outpos) =>
      match vViewsAt node.op outpos with
      | [] => .ok v
      | [i] =>
        match node.inputs[i]? with
        | some u => alias_root g fuel u
        | none => .badIndex
      | _ :: _ :: _ => .multi v

/-- All variables mentioned anywhere in the graph. -/
def mentionedVars (g : FGraph) : Finset Nat :=
  (g.fInputs ++ g.outputs ++ g.nodes.flatMap (fun n => n.inputs ++ n.outputs)).toFinset

/-- Canonical fuel: enough for any owner chain in an acyclic graph and for
saturating any closure over the graph's variables. -/
def graphFuel (g : FGraph) : Nat :=
  (mentionedVars g).card + 1

/-! ### Forward view sets (`view_tree_set`) -/

/-- The variables contributed by one client node `n` for a tree member `u`:
for every position `p` at which `n` consumes `u` and every `(opos, iposlist)`
entry of the node's view or destroy map with `p ∈ iposlist`, the output
variable at `opos`. -/
def nodeViewTargets (n : Apply) (u : Nat) : List Nat :=
  (List.range n.inputs.length).flatMap fun p =>
    if n.inputs[p]? = some u then
      (n.op.view_map ++ n.op.destroy_map).flatMap fun e =>
        if p ∈ e.2 then n.outputs[e.1]?.toList else []
    else []

def viewTargets (g : FGraph) (u : Nat) : Finset Nat :=
  (g.nodes.flatMap (fun n => nodeViewTargets n u)).toFinset

/-- `view_tree_set(fgraph, r, ∅)` as a saturated forward closure: all
variables that are (transitively) views or destroyed versions of `r`. -/
def view_tree_set (g : FGraph) (r : Nat) : Finset Nat :=
  (expandF (viewTargets g))^[graphFuel g] {r}

/-! ### Backward reachability (`graph_inputs`) -/

/-- Direct predecessors: the inputs of `v`'s owner. -/
def predList (g : FGraph) (v : Nat) : List Nat :=
  match ownerOf g v with
  | some (n, _) => n.inputs
  | none => []

/-- `ancestors(outputs)` as a saturated backward closure. -/
def ancestorsSet (g : FGraph) (start : List Nat) : Finset Nat :=
  (expandF (fun u => (predList g u).toFinset))^[graphFuel g + start.length] start.toFinset

/-- A strict upper bound on every variable identifier mentioned in the
graph. -/
def varBound (g : FGraph) : Nat :=
  ((g.fInputs ++ g.outputs ++ g.nodes.flatMap fun n => n.inputs ++ n.outputs).foldr
    max 0) + 1

/-- `list(graph_inputs(fgraph.outputs))`: owner-less ancestors of the
outputs, enumerated in ascending identifier order.  The source iterates them
in traversal order; for well-formed graphs at most one member of this list
can ever satisfy `insert_deepcopy`'s patch condition (a forward view set
contains at most one owner-less variable, its root), so a canonical ascending
order is an equivalent embedding. -/
def allGraphInputsList (g : FGraph) : List Nat :=
  (List.range (varBound g)).filter
    (fun v => decide (v ∈ ancestorsSet g g.outputs) && decide (ownerOf g v = none))

/-! ## C3: `alias_root` -/

/-- `v`'s output position appears with no input position in its owner's view
and destroy maps (in particular when `v` has no owner). -/
def NonAliased (g : FGraph) (v : Nat) : Prop :=
  ownerOf g v = none ∨
    ∃ node outpos, ownerOf g v = some (node, outpos) ∧ vViewsAt node.op outpos = []

/-- The variable `w` is declared, at its output position, a view or destroyed
version of two or more input positions (counted with multiplicity). -/
def MultiAt (g : FGraph) (w : Nat) : Prop :=
  ∃ node outpos, ownerOf g w = some (node, outpos) ∧ 2 ≤ (vViewsAt node.op outpos).length

/-- The variables reached by the backward walk of `alias_root`: each hop goes
through an owner whose view/destroy entry at the output position is a single
input position. -/
inductive AliasReaches (g : FGraph) : Nat → Nat → Prop
  | refl (v : Nat) : AliasReaches g v v
  | step {v u w : Nat} {node : Apply} {outpos i : Nat} :
      ownerOf g v = some (node, outpos) →
      vViewsAt node.op outpos = [i] →
      node.inputs[i]? = some u →
      AliasReaches g u w →
      AliasReaches g v w

/-- Acyclicity witnessed by a rank function decreasing from every node output
to every input of its owner. -/
def RankAcyclic (g : FGraph) (h : Nat → Nat) : Prop :=
  ∀ v ∈ mentionedVars g, ∀ u ∈ predList g v, h u < h v

instance (g : FGraph) (h : Nat → Nat) : Decidable (RankAcyclic g h) := by
  unfold RankAcyclic
  infer_instance

/-- Counterexample graph for the claim's "two or more *distinct* inputs": one
node whose single output is declared both a view and a destroyed version of
the *same* single input position. -/
def cexMultiNode : Apply :=
  { op := { view_map := [(0, [0])], destroy_map := [(0, [0])] }
    inputs := [0]
    outputs := [1] }

def cexMultiGraph : FGraph :=
  { fInputs := [0], outputs := [1], nodes := [cexMultiNode] }

/-- A small graph for witnessing `alias_root_spec`: variable 1 is a view of
input 0. -/
def aliasWitnessGraph : FGraph :=
  { fInputs := [0]
    outputs := [1]
    nodes := [{ op := { view_map := [(0, [0])], destroy_map := [] }
                inputs := [0]
                outputs := [1] }] }

/-! ## Model of `SymbolicInput` / `In`

The fields of `pytensor.compile.io.SymbolicInput`/`In` consumed by the
embedded module: the underlying variable, name, default value (either a
shared `Container` or a plain value), update variable, and the
mutable/borrow/shared/implicit flags.  `isInInstance` models
`isinstance(inp, In)`, `mayShareCapability` models
`hasattr(inp.variable.type, "may_share_memory")`, and `typeId` stands for
`inp.variable.type` when comparing types with `is_super`. -/

inductive DefaultVal where
  | contDefault (c : Nat)
  | plainVal (v : Nat)
deriving DecidableEq, Repr

structure SymbolicInput where
  var : Nat
  name : Option String
  value : Option DefaultVal
  update : Option Nat
  mutable : Bool
  borrow : Bool
  shared : Bool
  implicit : Bool
  isInInstance : Bool
  mayShareCapability : Bool
  typeId : Nat
deriving DecidableEq, Repr

/-! ## C7: `add_supervisor_to_fgraph` -/

inductive SupervisorErr where
  | inplaceNotAllowed (node : Apply)
  | zipLengthMismatch
deriving DecidableEq, Repr

structure SupervisorResult where
  attachedDestroyHandler : Bool
  protectedVars : List Nat
deriving DecidableEq, Repr

/-- `add_supervisor_to_fgraph(fgraph, input_specs, accept_inplace)`.
`hasDestroyHandlerAttr` models `hasattr(fgraph, "destroyers")` at entry and
`has_destroyers` models `fgraph.has_destroyers([input])` (the destroy
handler lives outside the embedded module).  The scan over `apply_nodes`
raises a `TypeError` naming the offending node when in-place operations are
not accepted; otherwise the first destructive node causes a
`DestroyHandler` feature to be attached.  Then the `Supervisor` is attached,
protecting the non-mutable not-already-destroyed inputs (`zip` with
`strict=True` fails on a length mismatch). -/
def add_supervisor_to_fgraph (g : FGraph) (input_specs : List SymbolicInput)
    (accept_inplace : Bool) (hasDestroyHandlerAttr : Bool)
    (has_destroyers : Nat → Bool) : Except SupervisorErr SupervisorResult :=
  let scan : Except SupervisorErr (Bool × Bool) :=
    if !(hasDestroyHandlerAttr && accept_inplace) then
      match g.nodes.find? (fun n => !n.op.destroy_map.isEmpty) with
      | some node =>
        if !accept_inplace then .error (.inplaceNotAllowed node)
        else .ok (true, true)
      | none => .ok (hasDestroyHandlerAttr, false)
    else .ok (hasDestroyHandlerAttr, false)
  match scan with
  | .error e => .error e
  | .ok (hdh, attachedNew) =>
    if input_specs.length ≠ g.fInputs.length then .error .zipLengthMismatch
    else
      .ok { attachedDestroyHandler := attachedNew
            protectedVars :=
              ((input_specs.zip g.fInputs).filter
                (fun p => !(p.1.mutable || (hdh && has_destroyers p.2)))).map (·.2) }

/-! ## C5: `std_fgraph` update extraction

Embeds the update bookkeeping of `std_fgraph` (the `fgraph is None` branch):
the enumeration loop that collects `updates` and `update_mapping` with the
running counter `out_idx`, the construction of the `FunctionGraph` outputs as
the declared outputs plus the updates, and the `found_updates` return
value. -/

/-- The enumeration loop of `std_fgraph`: walks `enumerate(input_specs)`
with the running output counter `out_idx`, collecting the update variables
and the `update_mapping` entries `out_idx -> idx`. -/
def extractUpdatesAux : List (Nat × SymbolicInput) → Nat → List Nat × List (Nat × Nat)
  | [], _ => ([], [])
  | (idx, spec) :: rest, out_idx =>
    match spec.update with
    | some u =>
      let p := extractUpdatesAux rest (out_idx + 1)
      (u :: p.1, (out_idx, idx) :: p.2)
    | none => extractUpdatesAux rest out_idx

structure StdFgraphResult where
  fg_outputs : List Nat
  update_mapping : List (Nat × Nat)
  found_updates : List Nat
deriving DecidableEq, Repr

/-- `std_fgraph(input_specs, output_specs)` with `fgraph=None`: the returned
graph's outputs are the declared outputs followed by the updates, with the
recorded update mapping; the updates are returned (wrapped in
`SymbolicOutput`) as the found updates. -/
def std_fgraph (input_specs : List SymbolicInput) (output_specs : List Nat) :
    StdFgraphResult :=
  let p := extractUpdatesAux (List.enumFrom 0 input_specs) output_specs.length
  { fg_outputs := output_specs ++ p.1
    update_mapping := p.2
    found_updates := p.1 }

/-- Input positions (counting from `i0`) whose specification carries an
update. -/
def updateInputPositions (i0 : Nat) (specs : List SymbolicInput) : List Nat :=
  (List.enumFrom i0 specs).filterMap
    (fun p => if p.2.update.isSome then some p.1 else none)

/-- Pair each element of a list with consecutive numbers starting at `o`. -/
def offsetZip : Nat → List Nat → List (Nat × Nat)
  | _, [] => []
  | o, p :: ps => (o, p) :: offsetZip (o + 1) ps

/-! ## C8: `FunctionMaker` required / refeed classification

`FunctionMaker.__init__` computes
`self.required = [(i.value is None) for i in self.inputs]` and
`self.refeed = [(i.value is not None and not isinstance(i.value, Container)
and i.update is None) for i in self.inputs]`; `FunctionMaker.create`
asserts `not (required and refeed)` for every input. -/

def isContainerDefault : Option DefaultVal → Bool
  | some (.contDefault _) => true
  | _ => false

/-- `i.value is None` (an entry of `FunctionMaker.required`). -/
def requiredOf (i : SymbolicInput) : Bool :=
  i.value.isNone

/-- `i.value is not None and not isinstance(i.value, Container) and
i.update is None` (an entry of `FunctionMaker.refeed`). -/
def refeedOf (i : SymbolicInput) : Bool :=
  i.value.isSome && !isContainerDefault i.value && i.update.isNone

/-- **C8 counterexample.** An input with no default value but with an update:
the code classifies it as required, while the claim ("required exactly when
it has no default value and no update") predicts it is not required. -/
def c8CexInput : SymbolicInput :=
  { var := 0, name := none, value := none, update := some 7, mutable := false
    borrow := false, shared := false, implicit := false, isInInstance := true
    mayShareCapability := false, typeId := 0 }

/-- Witness data for `add_supervisor_to_fgraph_spec`: a one-node graph whose
node destroys its input. -/
def supWitnessNode : Apply :=
  { op := { view_map := [], destroy_map := [(0, [0])] }, inputs := [0], outputs := [1] }

def supWitnessGraph : FGraph :=
  { fInputs := [0], outputs := [1], nodes := [supWitnessNode] }

def supWitnessSpec : SymbolicInput :=
  { var := 0, name := none, value := none, update := none, mutable := false
    borrow := false, shared := false, implicit := false, isInInstance := true
    mayShareCapability := false, typeId := 0 }

/-! ## `Function`: storage cells, finder, and `__call__`

Runtime values are abstract (`Val := Nat`).  A `Cell` models a `Container`
together with the per-input metadata `Function.__init__` stores on it
(`provided`, `required`, `implicit`) and the `defaults` triple entry
(`refeed`, default value).  External collaborators are parameters:
`filterFn i v` models `input_storage[i].type.filter(v, ...)` (`none` is a
filter exception), `mayShare i a b` models
`inputs[i].variable.type.may_share_memory(a, b)` (`False` on non-arrays, so
`none` storage never shares), and `copyFn` models `copy.copy`. -/

abbrev Val := Nat

structure Cell where
  storage : Option Val
  provided : Nat
  required : Bool
  refeed : Bool
  defaultVal : Option Val
  implicit : Bool
deriving DecidableEq, Repr

def storageAt (cells : List Cell) (i : Nat) : Option Val :=
  match cells[i]? with
  | some c => c.storage
  | none => none

def setStorageAt (cells : List Cell) (i : Nat) (v : Option Val) : List Cell :=
  match cells[i]? with
  | some c => cells.set i { c with storage := v }
  | none => cells

/-! ### The `finder` table (`Function.__init__`, lines 478-531) -/

inductive FinderKey where
  | idx (i : Nat)
  | var (v : Nat)
  | name (s : Option String)
deriving DecidableEq, Repr

inductive FinderVal where
  | cell (i : Nat)
  | dup
deriving DecidableEq, Repr

def assocFindK (m : List (FinderKey × FinderVal)) (k : FinderKey) : Option FinderVal :=
  (m.find? (fun p => p.1 == k)).map (·.2)

/-- The storage-initialization loop: for input `i` it sets `finder[i] = c`
and `finder[input.variable] = c`, then `finder[input.name] = c` if the name
is not yet a key and `finder[input.name] = DUPLICATE` otherwise.  Entries
are consed in front, so a lookup sees the latest assignment first, like the
Python dict. -/
def buildFinderGo : List SymbolicInput → Nat → List (FinderKey × FinderVal) →
    List (FinderKey × FinderVal)
  | [], _, m => m
  | inp :: rest, i, m =>
    let m2 := (FinderKey.var inp.var, FinderVal.cell i) ::
      (FinderKey.idx i, FinderVal.cell i) :: m
    let nameVal := match assocFindK m2 (FinderKey.name inp.name) with
      | none => FinderVal.cell i
      | some _ => FinderVal.dup
    buildFinderGo rest (i + 1) ((FinderKey.name inp.name, nameVal) :: m2)

def buildFinder (inputs : List SymbolicInput) : List (FinderKey × FinderVal) :=
  buildFinderGo inputs 0 []

inductive GetRes where
  | okGet (v : Option Val)
  | errUnknown
  | errAmbiguous
deriving DecidableEq, Repr

/-- `ValueAttribute.__getitem__` (and `Function.__getitem__`). -/
def Function_getitem (inputs : List SymbolicInput) (cells : List Cell)
    (k : FinderKey) : GetRes :=
  match assocFindK (buildFinder inputs) k with
  | none => .errUnknown
  | some .dup => .errAmbiguous
  | some (.cell i) => .okGet (storageAt cells i)

inductive CallErr where
  | tooManyArgs
  | unknownInput (k : String)
  | ambiguousName (k : String)
  | badInput (i : Nat)
  | missingInput (i : Nat)
  | multipleValues (i : Nat)
  | implicitProvided (i : Nat)
deriving DecidableEq, Repr

/-- `ValueAttribute.__setitem__` by name key: on success stores the filtered
value at the resolved cell and bumps `provided`. -/
def Function_setitem (filterFn : Nat → Val → Option Val)
    (inputs : List SymbolicInput) (cells : List Cell) (k : String)
    (v : Option Val) : Except CallErr (List Cell) :=
  match assocFindK (buildFinder inputs) (FinderKey.name (some k)) with
  | none => .error (.unknownInput k)
  | some .dup => .error (.ambiguousName k)
  | some (.cell i) =>
    match cells[i]? with
    | none => .ok cells
    | some c =>
      match v with
      | none => .ok (cells.set i { c with storage := none, provided := c.provided + 1 })
      | some w =>
        match filterFn i w with
        | none => .error (.badInput i)
        | some fw =>
          .ok (cells.set i { c with storage := some fw, provided := c.provided + 1 })

/-! ### Potential aliased input groups (`Function.__init__`, lines 443-476) -/

def eligibleForAliasGroup (inp : SymbolicInput) : Bool :=
  inp.isInInstance && inp.borrow && !inp.shared && inp.mayShareCapability

/-- Append `x` to the first group passing the membership test, or start a
new group at the end: the shared shape of the two greedy grouping loops
(`Function.__init__` lines 458-469 and `Function.__call__` lines 990-1005,
which differ only in their `any(...)` test). -/
def insertGrouped {α : Type} (t : α → List α → Bool) (x : α) :
    List (List α) → List (List α)
  | [] => [[x]]
  | g :: gs => if t x g then (g ++ [x]) :: gs else g :: insertGrouped t x gs

/-- Append `x` to the first group containing a type-comparable member, or
start a new group at the end. -/
def insertIntoGroups (is_super : Nat → Nat → Bool) (x : Nat × SymbolicInput)
    (gs : List (List (Nat × SymbolicInput))) : List (List (Nat × SymbolicInput)) :=
  insertGrouped
    (fun x g => g.any (fun y =>
      is_super x.2.typeId y.2.typeId || is_super y.2.typeId x.2.typeId)) x gs

/-- `Function._potential_aliased_input_groups`: group the eligible inputs
(`In` instances with `borrow=True`, not shared, whose type has
`may_share_memory`) by mutually comparable types, keeping the groups with
more than one member as index tuples. -/
def potential_aliased_input_groups (is_super : Nat → Nat → Bool)
    (inputs : List SymbolicInput) : List (List Nat) :=
  (((List.enumFrom 0 inputs).filter (fun p => eligibleForAliasGroup p.2)).foldl
      (fun gs p => insertIntoGroups is_super p gs) []).filterMap
    (fun g => if g.length > 1 then some (g.map (·.1)) else none)

/-! ### The aliasing-detection and defensive-copy block
(`Function.__call__`, lines 987-1014) -/

/-- Put index `i` into the first share-group one of whose members' storage
may share memory with `i`'s storage, or start a new share-group. -/
def insertShareGroup (mayShare : Nat → Option Val → Option Val → Bool)
    (cells : List Cell) (i : Nat) (gs : List (List Nat)) : List (List Nat) :=
  insertGrouped
    (fun i g => g.any (fun j => mayShare i (storageAt cells j) (storageAt cells i))) i gs

/-- `args_share_memory` for one potential group. -/
def groupArgsShareMemory (mayShare : Nat → Option Val → Option Val → Bool)
    (cells : List Cell) (group : List Nat) : List (List Nat) :=
  group.foldl (fun acc i => insertShareGroup mayShare cells i acc) []

/-- `input_storage[i].storage[0] = copy.copy(input_storage[i].storage[0])`
over a list of indices. -/
def copyTailFold (copyFn : Val → Val) (cs : List Cell) (l : List Nat) : List Cell :=
  l.foldl (fun cs2 i => setStorageAt cs2 i ((storageAt cs2 i).map copyFn)) cs

/-- "copy all but the first" of every share-group of size at least two. -/
def copyGroupTails (copyFn : Val → Val) (cells : List Cell)
    (groups : List (List Nat)) : List Cell :=
  groups.foldl
    (fun cs g => if g.length > 1 then copyTailFold copyFn cs g.tail else cs)
    cells

def processPotentialGroup (mayShare : Nat → Option Val → Option Val → Bool)
    (copyFn : Val → Val) (cells : List Cell) (pg : List Nat) : List Cell :=
  copyGroupTails copyFn cells (groupArgsShareMemory mayShare cells pg)

def aliasingCopyPhase (mayShare : Nat → Option Val → Option Val → Bool)
    (copyFn : Val → Val) (pgs : List (List Nat)) (cells : List Cell) : List Cell :=
  pgs.foldl (fun cs pg => processPotentialGroup mayShare copyFn cs pg) cells

/-! ### Argument collection, validation, updates
(`Function.__call__`, lines 912-1112) -/

/-- The `trust_input` fast path: write the raw arguments into the cells. -/
def writeTrustArgs : List Cell → List (Option Val) → List Cell
  | cells, [] => cells
  | [], _ => []
  | c :: cs, a :: as_ => { c with storage := a } :: writeTrustArgs cs as_

/-- Positional-argument loop: each value is filtered into its cell and the
cell's `provided` counter is bumped (also for `None` arguments); a filter
exception stops the loop, returning the offending index with the partially
updated cells. -/
def setPositional (filterFn : Nat → Val → Option Val) :
    Nat → List Cell → List (Option Val) → List Cell × Option Nat
  | _, cells, [] => (cells, none)
  | _, [], _ => ([], none)
  | i, c :: cs, a :: as_ =>
    match a with
    | none =>
      let r := setPositional filterFn (i + 1) cs as_
      ({ c with storage := none, provided := c.provided + 1 } :: r.1, r.2)
    | some v =>
      match filterFn i v with
      | none => (c :: cs, some i)
      | some fv =>
        let r := setPositional filterFn (i + 1) cs as_
        ({ c with storage := some fv, provided := c.provided + 1 } :: r.1, r.2)

/-- Keyword-argument loop `self[k] = arg`; an exception stops the loop (and
does not restore defaults). -/
def applyKwargs (filterFn : Nat → Val → Option Val) (inputs : List SymbolicInput) :
    List Cell → List (String × Option Val) → List Cell × Option CallErr
  | cells, [] => (cells, none)
  | cells, (k, v) :: rest =>
    match Function_setitem filterFn inputs cells k v with
    | .error e => (cells, some e)
    | .ok cells2 => applyKwargs filterFn inputs cells2 rest

/-- `Function._restore_defaults`: re-feed the default value of every refeed
cell (through `__setitem__`, which also bumps `provided`). -/
def restore_defaults (cells : List Cell) : List Cell :=
  cells.map fun c =>
    if c.refeed then { c with storage := c.defaultVal, provided := c.provided + 1 }
    else c

/-- The validation loop: the first cell violating a contract, with the
in-cell priority missing-required, multiply-provided, implicit-provided. -/
def findValidationError (cells : List Cell) : Option CallErr :=
  ((List.enumFrom 0 cells).filterMap fun p =>
    if p.2.required && p.2.provided == 0 then some (CallErr.missingInput p.1)
    else if p.2.provided > 1 then some (CallErr.multipleValues p.1)
    else if p.2.implicit && p.2.provided > 0 then some (CallErr.implicitProvided p.1)
    else none).head?

/-- `Function.n_returned_outputs`: the outputs past this count are the
update outputs (`updateInputPositions 0 inputs` are the positions of the
inputs whose containers form `update_storage`). -/
def n_returned_outputs (nOutputs : Nat) (inputs : List SymbolicInput) : Nat :=
  nOutputs - (updateInputPositions 0 inputs).length

/-- `Function.update_input_storage`: pairs of an update output's position
and the updated input's position. -/
def update_input_storage (nOutputs : Nat) (inputs : List SymbolicInput) :
    List (Nat × Nat) :=
  List.zip
    (List.range' (n_returned_outputs nOutputs inputs) (updateInputPositions 0 inputs).length)
    (updateInputPositions 0 inputs)

/-- "Set updates": `input_storage.storage[0] = outputs[i]`. -/
def applyUpdates (cells : List Cell) (upairs : List (Nat × Nat))
    (outs : List (Option Val)) : List Cell :=
  upairs.foldl (fun cs p => setStorageAt cs p.2 (outs.getD p.1 none)) cells

/-- "Remove input values from storage data": null the required cells. -/
def clearRequiredStorage (cells : List Cell) : List Cell :=
  cells.map fun c => if c.required then { c with storage := none } else c

/-- Static data of a compiled `Function` needed by `__call__`. -/
structure FunctionData where
  inputs : List SymbolicInput
  trust_input : Bool
  unpack_single : Bool
  return_none : Bool
  nOutputs : Nat
  need_update_inputs : Bool
deriving DecidableEq, Repr

/-- The call pipeline up to and including the bookkeeping after the VM ran:
returns the final cells and the retrieved outputs truncated to the returned
(non-update) outputs, or the raised error together with the cells as the
error propagates.  `vmOut` stands for the output values retrieved after the
linked VM ran (the VM and its output storage are outside the embedded
module; per the linker interface the updates are computed regardless of any
output-subset restriction). -/
def Function_call_core (fd : FunctionData)
    (is_super : Nat → Nat → Bool)
    (filterFn : Nat → Val → Option Val)
    (mayShare : Nat → Option Val → Option Val → Bool)
    (copyFn : Val → Val)
    (vmOut : List (Option Val))
    (cells0 : List Cell)
    (args : List (Option Val)) (kwargs : List (String × Option Val)) :
    Except (CallErr × List Cell) (List Cell × List (Option Val)) :=
  let postCollect : Except (CallErr × List Cell) (List Cell) :=
    if fd.trust_input then
      let cells1 := writeTrustArgs cells0 args
      match applyKwargs filterFn fd.inputs cells1 kwargs with
      | (cells2, some e) => .error (e, cells2)
      | (cells2, none) => .ok cells2
    else
      let cells1 := cells0.map (fun c => { c with provided := 0 })
      if args.length + kwargs.length > cells1.length then
        .error (.tooManyArgs, cells1)
      else
        match setPositional filterFn 0 cells1 args with
        | (cells2, some i) => .error (.badInput i, restore_defaults cells2)
        | (cells2, none) =>
          match applyKwargs filterFn fd.inputs cells2 kwargs with
          | (cells3, some e) => .error (e, cells3)
          | (cells3, none) =>
            let cells4 := aliasingCopyPhase mayShare copyFn
              (potential_aliased_input_groups is_super fd.inputs) cells3
            match findValidationError cells4 with
            | some e => .error (e, restore_defaults cells4)
            | none => .ok cells4
  match postCollect with
  | .error ec => .error ec
  | .ok cellsV =>
    let upairs :=
      if fd.need_update_inputs then update_input_storage fd.nOutputs fd.inputs else []
    let cellsU := applyUpdates cellsV upairs vmOut
    let cellsC := clearRequiredStorage cellsU
    let cellsR := if cellsC.any (·.refeed) then restore_defaults cellsC else cellsC
    .ok (cellsR, vmOut.take (n_returned_outputs fd.nOutputs fd.inputs))

inductive RetVal where
  | noneRet
  | single (v : Option Val)
  | listRet (vs : List (Option Val))
deriving DecidableEq, Repr

/-- Shape the return value: `None` when no outputs were declared, the
output-subset selection applied to the (already truncated) returned
outputs, unpacked when a single non-list output was declared. -/
def makeReturn (return_none unpack_single : Bool) (subset : Option (List Nat))
    (outs : List (Option Val)) : RetVal :=
  if return_none then .noneRet
  else
    let outs2 := match subset with
      | some sel => sel.map (fun i => outs.getD i none)
      | none => outs
    if unpack_single then .single (outs2.getD 0 none)
    else .listRet outs2

structure CallResult where
  ret : Except CallErr RetVal
  cells : List Cell
deriving Repr

/-- `Function.__call__`. -/
def Function_call (fd : FunctionData)
    (is_super : Nat → Nat → Bool)
    (filterFn : Nat → Val → Option Val)
    (mayShare : Nat → Option Val → Option Val → Bool)
    (copyFn : Val → Val)
    (vmOut : List (Option Val))
    (cells0 : List Cell)
    (args : List (Option Val)) (kwargs : List (String × Option Val))
    (output_subset : Option (List Nat)) : CallResult :=
  match Function_call_core fd is_super filterFn mayShare copyFn vmOut cells0 args kwargs with
  | .error (e, cs) => { ret := .error e, cells := cs }
  | .ok (cs, outs) =>
    { ret := .ok (makeReturn fd.return_none fd.unpack_single output_subset outs)
      cells := cs }

/-! ## C4: call-time contract violations and default restoration -/

/-- The violation test of the validation loop for one (position, cell)
pair. -/
def cellViolation (p : Nat × Cell) : Option CallErr :=
  if p.2.required && p.2.provided == 0 then some (CallErr.missingInput p.1)
  else if p.2.provided > 1 then some (CallErr.multipleValues p.1)
  else if p.2.implicit && p.2.provided > 0 then some (CallErr.implicitProvided p.1)
  else none

/-- **C4 counterexample.** A call with too many arguments on a function with
one refeed input whose cell currently holds a non-default value: the call
raises the `TypeError` but the refeed default is *not* restored before the
error propagates (the check fires before any storage was written, and the
source raises without calling `_restore_defaults`). -/
def c4CexInput : SymbolicInput :=
  { var := 0, name := some "x", value := some (.plainVal 7), update := none
    mutable := false, borrow := false, shared := false, implicit := false
    isInInstance := true, mayShareCapability := false, typeId := 0 }

def c4CexFd : FunctionData :=
  { inputs := [c4CexInput], trust_input := false, unpack_single := false
    return_none := false, nOutputs := 1, need_update_inputs := true }

def c4CexCell : Cell :=
  { storage := some 5, provided := 0, required := false, refeed := true
    defaultVal := some 7, implicit := false }

def c4WitInput : SymbolicInput :=
  { var := 0, name := some "x", value := none, update := none, mutable := false
    borrow := false, shared := false, implicit := false, isInInstance := true
    mayShareCapability := false, typeId := 0 }

def c4WitFd : FunctionData :=
  { inputs := [c4WitInput], trust_input := false, unpack_single := false
    return_none := false, nOutputs := 1, need_update_inputs := true }

def c4WitCell : Cell :=
  { storage := none, provided := 0, required := true, refeed := false
    defaultVal := none, implicit := false }

def c6InputA : SymbolicInput :=
  { var := 0, name := some "x", value := none, update := none, mutable := false
    borrow := false, shared := false, implicit := false, isInInstance := true
    mayShareCapability := false, typeId := 0 }

def c6InputB : SymbolicInput :=
  { c6InputA with var := 1 }

def c6Fd : FunctionData :=
  { inputs := [c6InputA, c6InputB], trust_input := false, unpack_single := false
    return_none := false, nOutputs := 1, need_update_inputs := true }

def c6CellA : Cell :=
  { storage := some 3, provided := 0, required := false, refeed := false
    defaultVal := none, implicit := false }

def c6CellB : Cell :=
  { c6CellA with storage := some 4 }

def c10Input0 : SymbolicInput :=
  { var := 0, name := some "s", value := none, update := some 5, mutable := false
    borrow := false, shared := false, implicit := false, isInInstance := true
    mayShareCapability := false, typeId := 0 }

def c10Input1 : SymbolicInput :=
  { var := 1, name := some "x", value := none, update := none, mutable := false
    borrow := false, shared := false, implicit := false, isInInstance := true
    mayShareCapability := false, typeId := 0 }

def c10Fd : FunctionData :=
  { inputs := [c10Input0, c10Input1], trust_input := true, unpack_single := false
    return_none := false, nOutputs := 3, need_update_inputs := true }

def c10Cell0 : Cell :=
  { storage := some 0, provided := 0, required := false, refeed := false
    defaultVal := none, implicit := false }

def c10Cell1 : Cell :=
  { storage := none, provided := 0, required := true, refeed := false
    defaultVal := none, implicit := false }

def c2Input : SymbolicInput :=
  { var := 0, name := some "x", value := none, update := none, mutable := false
    borrow := true, shared := false, implicit := false, isInInstance := true
    mayShareCapability := true, typeId := 0 }

def c2InputB : SymbolicInput :=
  { c2Input with var := 1, name := some "y" }

def c2Cell : Cell :=
  { storage := some 9, provided := 1, required := true, refeed := false
    defaultVal := none, implicit := false }

/-! ## C1 and C9: `insert_deepcopy`

The defensive-copy pass walks the outputs in order; for output `i` it
computes the forward view set of `alias_root(outputs[i])`, first scans the
later outputs for membership (patching the edge with a `view_op` node when
both outputs are borrowable and with a `deep_copy_op` node otherwise,
stopping at the first hit), and otherwise scans `all_graph_inputs`
(computed once at entry from `graph_inputs(fgraph.outputs)`), skipping
updated inputs and destroyed inputs and patching on the first aliasing
input found.  `destroyed` is an oracle for
`hasattr(fgraph, "has_destroyers") and fgraph.has_destroyers([input_j])`
(the destroy handler lives outside the embedded module) and is fixed across
a run: view/deep-copy nodes declare no destroy maps, so the handler's
answers do not change while the pass runs.  Fresh variable identifiers are
drawn from a counter, mirroring the allocation of new `Apply` nodes. -/

structure SymbolicOutput where
  borrow : Bool
deriving DecidableEq, Repr

def dummySymbolicInput : SymbolicInput :=
  { var := 0, name := none, value := none, update := none, mutable := false
    borrow := false, shared := false, implicit := false, isInInstance := false
    mayShareCapability := false, typeId := 0 }

def dummySymbolicOutput : SymbolicOutput := ⟨false⟩

/-- `ViewOp`: `view_map = {0: [0]}`, no destroy map. -/
def viewOpMaps : OpMaps := { view_map := [(0, [0])], destroy_map := [] }

/-- `DeepCopyOp`: no view map, no destroy map. -/
def deepCopyOpMaps : OpMaps := { view_map := [], destroy_map := [] }

inductive PatchKind where
  | viewPatch
  | copyPatch
deriving DecidableEq, Repr

structure Patch where
  outIndex : Nat
  kind : PatchKind
  newVar : Nat
deriving DecidableEq, Repr

structure IDCState where
  g : FGraph
  fresh : Nat
  patches : List Patch
deriving DecidableEq, Repr

instance exceptDecEq {ε α : Type} [DecidableEq ε] [DecidableEq α] :
    DecidableEq (Except ε α) := fun a b =>
  match a, b with
  | .error e, .error e' =>
    if h : e = e' then .isTrue (by rw [h])
    else .isFalse (by intro hc; cases hc; exact h rfl)
  | .error _, .ok _ => .isFalse (by intro hc; cases hc)
  | .ok _, .error _ => .isFalse (by intro hc; cases hc)
  | .ok x, .ok y =>
    if h : x = y then .isTrue (by rw [h])
    else .isFalse (by intro hc; cases hc; exact h rfl)

def dcNode (u w : Nat) : Apply :=
  { op := deepCopyOpMaps, inputs := [u], outputs := [w] }

def viewNode (u w : Nat) : Apply :=
  { op := viewOpMaps, inputs := [u], outputs := [w] }

/-- `fgraph.change_node_input(*output_client, view_op(original_out))` /
`deep_copy_op(original_out)`: allocate the marker node on the current
output variable and rewire the output edge to its fresh result. -/
def applyPatch (st : IDCState) (i : Nat) (kind : PatchKind) : IDCState :=
  let oldOut := st.g.outputs.getD i 0
  let nv := st.fresh
  let node := match kind with
    | .viewPatch => viewNode oldOut nv
    | .copyPatch => dcNode oldOut nv
  { g := { fInputs := st.g.fInputs
           outputs := st.g.outputs.set i nv
           nodes := st.g.nodes ++ [node] }
    fresh := nv + 1
    patches := st.patches ++ [⟨i, kind, nv⟩] }

inductive IDCErr where
  | multiView (v : Nat)
  | aliasFail
deriving DecidableEq, Repr

/-- `updated_fgraph_inputs`: the fgraph inputs whose wrapped input carries
an update. -/
def updatedFgraphInputs (wIn : List SymbolicInput) (fInputs : List Nat) : List Nat :=
  ((wIn.zip fInputs).filter (fun p => p.1.update.isSome)).map (·.2)

/-- The body of `insert_deepcopy`'s loop for output `i` (source lines
1252-1318). -/
def idcStep (wIn : List SymbolicInput) (wOut : List SymbolicOutput)
    (destroyed : Nat → Bool) (allGIs : List Nat) (updated : List Nat)
    (st : IDCState) (i : Nat) : Except IDCErr IDCState :=
  let g := st.g
  let original_out := g.outputs.getD i 0
  match alias_root g (graphFuel g) original_out with
  | .multi v => .error (.multiView v)
  | .badIndex => .error .aliasFail
  | .noFuel => .error .aliasFail
  | .ok root =>
    let views := view_tree_set g root
    match (List.range' (i + 1) (g.outputs.length - (i + 1))).find?
        (fun j => decide (g.outputs.getD j 0 ∈ views)) with
    | some j =>
      if (wOut.getD i dummySymbolicOutput).borrow &&
          (wOut.getD j dummySymbolicOutput).borrow then
        .ok (applyPatch st i .viewPatch)
      else
        .ok (applyPatch st i .copyPatch)
    | none =>
      match allGIs.find? (fun v =>
          !updated.contains v && decide (v ∈ views) && !destroyed v) with
      | none => .ok st
      | some v =>
        if g.fInputs.contains v then
          let j := g.fInputs.indexOf v
          if (wOut.getD i dummySymbolicOutput).borrow &&
              (wIn.getD j dummySymbolicInput).borrow then
            .ok (applyPatch st i .viewPatch)
          else
            .ok (applyPatch st i .copyPatch)
        else
          if (wOut.getD i dummySymbolicOutput).borrow then
            .ok (applyPatch st i .viewPatch)
          else
            .ok (applyPatch st i .copyPatch)

/-- `insert_deepcopy(fgraph, wrapped_inputs, wrapped_outputs)`. -/
def insert_deepcopy (wIn : List SymbolicInput) (wOut : List SymbolicOutput)
    (destroyed : Nat → Bool) (g : FGraph) (fresh : Nat) : Except IDCErr IDCState :=
  let allGIs := allGraphInputsList g
  let updated := updatedFgraphInputs wIn g.fInputs
  (List.range g.outputs.length).foldlM
    (fun st i => idcStep wIn wOut destroyed allGIs updated st i)
    { g := g, fresh := fresh, patches := [] }

/-- The loop body as the specification's policy sentence describes it:
process outputs in declared order; for each output first check the
later-indexed outputs for membership in its forward view set, patching with
a view marker when both outputs are borrow-permitted and a deep copy
otherwise, and stopping at the first hit; only if no later output aliased
it, check the graph's input nodes, skipping inputs carrying an update and
inputs destroyed in place, and patch on the first aliasing input found
(view when both the output and that input are borrow-permitted, copy
otherwise). -/
def idcPolicyStep (wIn : List SymbolicInput) (wOut : List SymbolicOutput)
    (destroyed : Nat → Bool) (allGIs : List Nat) (updated : List Nat)
    (st : IDCState) (i : Nat) : Except IDCErr IDCState :=
  let g := st.g
  let original_out := g.outputs.getD i 0
  match alias_root g (graphFuel g) original_out with
  | .multi v => .error (.multiView v)
  | .badIndex => .error .aliasFail
  | .noFuel => .error .aliasFail
  | .ok root =>
    let views := view_tree_set g root
    match (List.range' (i + 1) (g.outputs.length - (i + 1))).find?
        (fun j => decide (g.outputs.getD j 0 ∈ views)) with
    | some j =>
      if (wOut.getD i dummySymbolicOutput).borrow &&
          (wOut.getD j dummySymbolicOutput).borrow then
        .ok (applyPatch st i .viewPatch)
      else
        .ok (applyPatch st i .copyPatch)
    | none =>
      match allGIs.find? (fun v =>
          !updated.contains v && decide (v ∈ views) && !destroyed v) with
      | none => .ok st
      | some v =>
        let j := g.fInputs.indexOf v
        if (wOut.getD i dummySymbolicOutput).borrow &&
            (wIn.getD j dummySymbolicInput).borrow then
          .ok (applyPatch st i .viewPatch)
        else
          .ok (applyPatch st i .copyPatch)

/-- The whole pass under the specification's policy reading. -/
def insert_deepcopy_policy (wIn : List SymbolicInput) (wOut : List SymbolicOutput)
    (destroyed : Nat → Bool) (g : FGraph) (fresh : Nat) : Except IDCErr IDCState :=
  let allGIs := allGraphInputsList g
  let updated := updatedFgraphInputs wIn g.fInputs
  (List.range g.outputs.length).foldlM
    (fun st i => idcPolicyStep wIn wOut destroyed allGIs updated st i)
    { g := g, fresh := fresh, patches := [] }

/-- The deep-copy node recorded by a patch: it consumes the original output
at the patched position and produces the patch's fresh variable. -/
def toDcNode (g0 : FGraph) (p : Patch) : Apply :=
  dcNode (g0.outputs.getD p.outIndex 0) p.newVar

/-- The state of `insert_deepcopy` part-way through a run whose patches were
all deep copies, described relative to the entry graph `g0` and the entry
counter `fresh0`. -/
structure DCExt (g0 : FGraph) (fresh0 : Nat) (st : IDCState) : Prop where
  fin : st.g.fInputs = g0.fInputs
  freshGe : fresh0 ≤ st.fresh
  nlen : st.g.outputs.length = g0.outputs.length
  nodes_eq : st.g.nodes = g0.nodes ++ st.patches.map (toDcNode g0)
  outs_eq : ∀ i < g0.outputs.length,
    st.g.outputs.getD i 0 =
      match st.patches.find? (fun p => p.outIndex == i) with
      | some p => p.newVar
      | none => g0.outputs.getD i 0
  patch_idx : ∀ p ∈ st.patches, p.outIndex < g0.outputs.length
  patch_lb : ∀ p ∈ st.patches, fresh0 ≤ p.newVar
  patch_ub : ∀ p ∈ st.patches, p.newVar < st.fresh
  var_nodup : st.patches.Pairwise (fun p q => p.newVar ≠ q.newVar)
  idx_nodup : st.patches.Pairwise (fun p q => p.outIndex ≠ q.outIndex)

/-- Output `i` needed no patch, stated over the entry graph alone: its alias
root resolves, no later output lies in its forward view set, and the scan of
the graph inputs finds no aliasing candidate. -/
def NoAliasAt (wIn : List SymbolicInput) (destroyed : Nat → Bool)
    (g0 : FGraph) (F i : Nat) : Prop :=
  ∃ root, alias_root g0 F (g0.outputs.getD i 0) = .ok root ∧
    (∀ j, i < j → j < g0.outputs.length →
      g0.outputs.getD j 0 ∉ view_tree_set g0 root) ∧
    (allGraphInputsList g0).find? (fun v =>
      !(updatedFgraphInputs wIn g0.fInputs).contains v &&
        decide (v ∈ view_tree_set g0 root) && !destroyed v) = none

def c9In : SymbolicInput := { dummySymbolicInput with borrow := true }

def c9Out : SymbolicOutput := ⟨true⟩

def c9Graph : FGraph := { fInputs := [0], outputs := [0, 0], nodes := [] }

def c9Run1 : IDCState :=
  { g := { fInputs := [0], outputs := [10, 11],
           nodes := [viewNode 0 10, viewNode 0 11] },
    fresh := 12,
    patches := [⟨0, .viewPatch, 10⟩, ⟨1, .viewPatch, 11⟩] }

def c9Run2 : IDCState :=
  { g := { fInputs := [0], outputs := [12, 13],
           nodes := [viewNode 0 10, viewNode 0 11, viewNode 10 12, viewNode 11 13] },
    fresh := 14,
    patches := [⟨0, .viewPatch, 12⟩, ⟨1, .viewPatch, 13⟩] }

def c9WitIn : SymbolicInput := { dummySymbolicInput with borrow := true }

def c9WitOut : SymbolicOutput := ⟨false⟩

def c9WitGraph : FGraph := { fInputs := [0], outputs := [0, 0], nodes := [] }

def c9WitRun1 : IDCState :=
  { g := { fInputs := [0], outputs := [10, 11],
           nodes := [dcNode 0 10, dcNode 0 11] },
    fresh := 12,
    patches := [⟨0, .copyPatch, 10⟩, ⟨1, .copyPatch, 11⟩] }

def c1In : SymbolicInput :=
  { dummySymbolicInput with borrow := true }

def c1Out : SymbolicOutput := ⟨true⟩

def c1Graph : FGraph := { fInputs := [0], outputs := [0, 0], nodes := [] }

def c1CexOut : SymbolicOutput := ⟨true⟩

/-- A graph whose single output is a `Constant` leaf: it has an owner-less
variable as output that is not among the declared fgraph inputs. -/
def c1CexGraph : FGraph := { fInputs := [], outputs := [0], nodes := [] }

theorem subset_expandF (f : Nat → Finset Nat) (s : Finset Nat) : s ⊆ expandF f s :=
  Finset.subset_union_left

theorem expandF_mono (f : Nat → Finset Nat) {s t : Finset Nat} (h : s ⊆ t) :
    expandF f s ⊆ expandF f t :=
  Finset.union_subset_union h (Finset.biUnion_subset_biUnion_of_subset_left f h)

theorem expandF_subset_of_closed (f : Nat → Finset Nat) {s U : Finset Nat}
    (hU : ∀ a ∈ U, f a ⊆ U) (hs : s ⊆ U) : expandF f s ⊆ U := by
  refine Finset.union_subset hs ?_
  refine Finset.biUnion_subset.mpr ?_
  intro a ha
  exact hU a (hs ha)

theorem iterate_expandF_subset_of_closed (f : Nat → Finset Nat) {s U : Finset Nat}
    (hU : ∀ a ∈ U, f a ⊆ U) (hs : s ⊆ U) (n : Nat) : (expandF f)^[n] s ⊆ U := by
  induction n generalizing s with
  | zero => simpa using hs
  | succ n ih =>
    rw [Function.iterate_succ_apply]
    exact ih (expandF_subset_of_closed f hU hs)

theorem iterate_expandF_succ_out (f : Nat → Finset Nat) (s : Finset Nat) (n : Nat) :
    (expandF f)^[n + 1] s = expandF f ((expandF f)^[n] s) :=
  Function.iterate_succ_apply' (expandF f) n s

theorem subset_iterate_expandF (f : Nat → Finset Nat) (s : Finset Nat) (n : Nat) :
    s ⊆ (expandF f)^[n] s := by
  induction n with
  | zero => simp
  | succ n ih =>
    rw [iterate_expandF_succ_out]
    exact ih.trans (subset_expandF f _)

theorem iterate_expandF_mono_fuel (f : Nat → Finset Nat) (s : Finset Nat) {m n : Nat}
    (h : m ≤ n) : (expandF f)^[m] s ⊆ (expandF f)^[n] s := by
  obtain ⟨k, rfl⟩ := Nat.exists_eq_add_of_le h
  clear h
  induction k with
  | zero => simp
  | succ k ih =>
    have : (expandF f)^[m + (k + 1)] s = expandF f ((expandF f)^[m + k] s) := by
      rw [← Nat.add_assoc, iterate_expandF_succ_out]
    rw [this]
    exact ih.trans (subset_expandF f _)

theorem iterate_expandF_of_fix (f : Nat → Finset Nat) {s : Finset Nat}
    (h : expandF f s = s) (n : Nat) : (expandF f)^[n] s = s := by
  induction n with
  | zero => rfl
  | succ n ih => rw [Function.iterate_succ_apply, h, ih]

/-- If the chain has not stabilized after `n` steps then its cardinality has
grown by at least `n`. -/
theorem iterate_expandF_card_ge (f : Nat → Finset Nat) (s : Finset Nat) (n : Nat)
    (h : ∀ m < n, expandF f ((expandF f)^[m] s) ≠ (expandF f)^[m] s) :
    n + s.card ≤ ((expandF f)^[n] s).card := by
  induction n with
  | zero => simp
  | succ n ih =>
    have hlt : ((expandF f)^[n] s).card < ((expandF f)^[n + 1] s).card := by
      rw [iterate_expandF_succ_out]
      refine Finset.card_lt_card (Finset.ssubset_iff_subset_ne.mpr
        ⟨subset_expandF f _, ?_⟩)
      intro heq
      exact h n (Nat.lt_succ_self n) heq.symm
    have := ih (fun m hm => h m (Nat.lt_succ_of_lt hm))
    omega

/-- Pigeonhole: within `U.card` steps the expansion chain hits a fixed point. -/
theorem exists_fix_le_card (f : Nat → Finset Nat) {s U : Finset Nat}
    (hU : ∀ a ∈ U, f a ⊆ U) (hs : s ⊆ U) :
    ∃ n ≤ U.card, expandF f ((expandF f)^[n] s) = (expandF f)^[n] s := by
  by_contra hc
  push_neg at hc
  have hgrow := iterate_expandF_card_ge f s (U.card + 1)
    (fun m hm => hc m (Nat.lt_succ_iff.mp hm))
  have hsub : (expandF f)^[U.card + 1] s ⊆ U :=
    iterate_expandF_subset_of_closed f hU hs _
  have := Finset.card_le_card hsub
  omega

theorem iterate_expandF_eq_of_fix_le (f : Nat → Finset Nat) (s : Finset Nat) {n m : Nat}
    (hfix : expandF f ((expandF f)^[n] s) = (expandF f)^[n] s) (h : n ≤ m) :
    (expandF f)^[m] s = (expandF f)^[n] s := by
  obtain ⟨k, rfl⟩ := Nat.exists_eq_add_of_le h
  clear h
  induction k with
  | zero => rfl
  | succ k ih =>
    have : (expandF f)^[n + (k + 1)] s = expandF f ((expandF f)^[n + k] s) := by
      rw [← Nat.add_assoc, iterate_expandF_succ_out]
    rw [this, ih, hfix]

/-- With fuel `U.card` over a closed universe `U` the iteration is saturated. -/
theorem expandF_iterate_saturated (f : Nat → Finset Nat) {s U : Finset Nat}
    (hU : ∀ a ∈ U, f a ⊆ U) (hs : s ⊆ U) :
    expandF f ((expandF f)^[U.card] s) = (expandF f)^[U.card] s := by
  obtain ⟨n, hn, hfix⟩ := exists_fix_le_card f hU hs
  rw [iterate_expandF_eq_of_fix_le f s hfix hn, hfix]

/-- Any two sufficiently large fuels give the same closure. -/
theorem iterate_expandF_fuel_irrel (f : Nat → Finset Nat) {s U : Finset Nat}
    (hU : ∀ a ∈ U, f a ⊆ U) (hs : s ⊆ U) {m n : Nat}
    (hm : U.card ≤ m) (hn : U.card ≤ n) :
    (expandF f)^[m] s = (expandF f)^[n] s := by
  have hsat := expandF_iterate_saturated f hU hs
  rw [iterate_expandF_eq_of_fix_le f s hsat hm, iterate_expandF_eq_of_fix_le f s hsat hn]

/-- The saturated closure is contained in any `f`-closed set containing `s`. -/
theorem iterate_expandF_least (f : Nat → Finset Nat) {s T : Finset Nat}
    (hT : ∀ a ∈ T, f a ⊆ T) (hs : s ⊆ T) (n : Nat) : (expandF f)^[n] s ⊆ T :=
  iterate_expandF_subset_of_closed f hT hs n

theorem iterate_expandF_congr (f g : Nat → Finset Nat) (s : Finset Nat) (n : Nat)
    (h : ∀ a, f a = g a) : (expandF f)^[n] s = (expandF g)^[n] s := by
  have hfg : f = g := funext h
  rw [hfg]

theorem owner_mem_mentioned {g : FGraph} {v : Nat} {np : Apply × Nat}
    (h : ownerOf g v = some np) : v ∈ mentionedVars g := by
  unfold ownerOf at h
  rcases hf : g.nodes.find? (fun n => n.outputs.contains v) with _ | n
  · rw [hf] at h
    exact absurd h (by simp)
  · rw [hf] at h
    have hmemn : n ∈ g.nodes := List.mem_of_find?_eq_some hf
    have hpv : n.outputs.contains v = true := by
      have := List.find?_some hf
      simpa using this
    have hv : v ∈ n.outputs := by
      simpa using hpv
    unfold mentionedVars
    simp only [List.mem_toFinset, List.mem_append, List.mem_flatMap]
    exact Or.inr ⟨n, hmemn, Or.inr hv⟩

theorem rank_pred_lt {g : FGraph} {h : Nat → Nat} (hr : RankAcyclic g h)
    {v : Nat} {node : Apply} {outpos i u : Nat}
    (hown : ownerOf g v = some (node, outpos)) (hget : node.inputs[i]? = some u) :
    h u < h v := by
  have hmem : v ∈ mentionedVars g := owner_mem_mentioned hown
  have hpred : u ∈ predList g v := by
    unfold predList
    rw [hown]
    exact List.getElem?_mem hget
  exact hr v hmem u hpred

theorem alias_root_multi_of_reaches {g : FGraph} {h : Nat → Nat} (hr : RankAcyclic g h)
    {v w : Nat} (hreach : AliasReaches g v w) (hmulti : MultiAt g w) :
    ∀ fuel, h v < fuel → alias_root g fuel v = .multi w := by
  induction hreach with
  | refl v =>
    intro fuel hv
    obtain ⟨node, outpos, hown, hlen⟩ := hmulti
    obtain ⟨fuel, rfl⟩ : ∃ f, fuel = f + 1 := ⟨fuel - 1, by omega⟩
    rcases hviews : vViewsAt node.op outpos with _ | ⟨i, _ | ⟨j, rest⟩⟩
    · rw [hviews] at hlen
      simp at hlen
    · rw [hviews] at hlen
      simp at hlen
    · simp only [alias_root, hown, hviews]
  | step hown hviews hget hrest ih =>
    intro fuel hv
    obtain ⟨fuel, rfl⟩ : ∃ f, fuel = f + 1 := ⟨fuel - 1, by omega⟩
    simp only [alias_root, hown, hviews, hget]
    have hu := rank_pred_lt hr hown hget
    exact ih hmulti fuel (by omega)

/-- **C3 (amended).** For every graph with view/destroy maps and every
acyclicity rank: `alias_root` applied to a non-aliased variable returns the
variable itself; it terminates (never exhausts fuel) whenever the fuel
exceeds the variable's rank; and it raises exactly when some variable reached
during the backward walk is declared, at one output position, a view or
destroyed version of two or more input positions counted with multiplicity
(the concatenation of its view-map and destroy-map entries at that position
lists at least two input positions). -/
theorem alias_root_spec (g : FGraph) (h : Nat → Nat) (hr : RankAcyclic g h) (fuel : Nat) :
    (∀ v, h v < fuel → NonAliased g v → alias_root g fuel v = .ok v) ∧
    (∀ v, h v < fuel → alias_root g fuel v ≠ .noFuel) ∧
    (∀ v w, h v < fuel →
      (alias_root g fuel v = .multi w ↔ AliasReaches g v w ∧ MultiAt g w)) := by
  refine ⟨?_, ?_, ?_⟩
  · intro v hv hna
    obtain ⟨fuel, rfl⟩ : ∃ f, fuel = f + 1 := ⟨fuel - 1, by omega⟩
    rcases hna with hown | ⟨node, outpos, hown, hviews⟩
    · simp only [alias_root, hown]
    · simp only [alias_root, hown, hviews]
  · intro v hv
    induction fuel generalizing v with
    | zero => omega
    | succ fuel ih =>
      rcases hown : ownerOf g v with _ | ⟨node, outpos⟩
      · simp [alias_root, hown]
      · rcases hviews : vViewsAt node.op outpos with _ | ⟨i, _ | ⟨j, rest⟩⟩
        · simp [alias_root, hown, hviews]
        · rcases hget : node.inputs[i]? with _ | u
          · simp [alias_root, hown, hviews, hget]
          · simp only [alias_root, hown, hviews, hget]
            have hu : h u < h v := rank_pred_lt hr hown hget
            exact ih u (by omega)
        · simp [alias_root, hown, hviews]
  · intro v w hv
    constructor
    · intro hres
      induction fuel generalizing v with
      | zero => omega
      | succ fuel ih =>
        rcases hown : ownerOf g v with _ | ⟨node, outpos⟩
        · simp only [alias_root, hown] at hres
          exact absurd hres (by simp)
        · rcases hviews : vViewsAt node.op outpos with _ | ⟨i, _ | ⟨j, rest⟩⟩
          · simp only [alias_root, hown, hviews] at hres
            exact absurd hres (by simp)
          · rcases hget : node.inputs[i]? with _ | u
            · simp only [alias_root, hown, hviews, hget] at hres
              exact absurd hres (by simp)
            · simp only [alias_root, hown, hviews, hget] at hres
              have hu : h u < h v := rank_pred_lt hr hown hget
              obtain ⟨hreach, hmulti⟩ := ih u (by omega) hres
              exact ⟨.step hown hviews hget hreach, hmulti⟩
          · simp only [alias_root, hown, hviews] at hres
            have hvw : v = w := by
              simpa using hres
            subst hvw
            refine ⟨.refl v, node, outpos, hown, ?_⟩
            rw [hviews]
            simp
    · rintro ⟨hreach, hmulti⟩
      exact alias_root_multi_of_reaches hr hreach hmulti fuel hv

/-- **C3 counterexample.** `alias_root` raises on the output of
`cexMultiGraph` although that output is a view/destroyed version of exactly
one distinct input position (position 0, variable 0): the claim's "two or
more distinct inputs" does not match the code, which counts the concatenated
view and destroy entries with multiplicity. -/
theorem alias_root_distinct_counterexample :
    alias_root cexMultiGraph 5 1 = .multi 1 ∧
    (vViewsAt cexMultiNode.op 0).dedup = [0] ∧
    cexMultiNode.inputs = [0] := by
  refine ⟨by decide, by decide, rfl⟩

theorem alias_root_spec_witness :
    RankAcyclic aliasWitnessGraph (fun v => v) ∧
    ((∀ v, (fun v => v) v < 3 → NonAliased aliasWitnessGraph v →
        alias_root aliasWitnessGraph 3 v = .ok v) ∧
     (∀ v, (fun v => v) v < 3 → alias_root aliasWitnessGraph 3 v ≠ .noFuel) ∧
     (∀ v w, (fun v => v) v < 3 →
        (alias_root aliasWitnessGraph 3 v = .multi w ↔
          AliasReaches aliasWitnessGraph v w ∧ MultiAt aliasWitnessGraph w))) :=
  ⟨by decide, alias_root_spec aliasWitnessGraph (fun v => v) (by decide) 3⟩

/-- **C7.** With in-place operations not explicitly permitted, on a graph
without an existing destroy handler containing a node with a non-empty
destroy map, preparation fails with an error identifying an offending node
(and no supervisor is attached: the error result carries no feature); with
`accept_inplace = true` no such error is raised and the destroy-tracking
feature is attached instead. -/
theorem add_supervisor_to_fgraph_spec (g : FGraph) (specs : List SymbolicInput)
    (has_destroyers : Nat → Bool)
    (hnode : ∃ n ∈ g.nodes, n.op.destroy_map ≠ [])
    (hlen : specs.length = g.fInputs.length) :
    (∃ node ∈ g.nodes, node.op.destroy_map ≠ [] ∧
      add_supervisor_to_fgraph g specs false false has_destroyers =
        .error (.inplaceNotAllowed node)) ∧
    (∃ r, add_supervisor_to_fgraph g specs true false has_destroyers = .ok r ∧
      r.attachedDestroyHandler = true) := by
  have hfind : (g.nodes.find? (fun n => !n.op.destroy_map.isEmpty)).isSome := by
    rw [List.find?_isSome]
    obtain ⟨n, hn, hne⟩ := hnode
    exact ⟨n, hn, by simpa [List.isEmpty_iff] using hne⟩
  obtain ⟨node, hfound⟩ := Option.isSome_iff_exists.mp hfind
  constructor
  · refine ⟨node, List.mem_of_find?_eq_some hfound, ?_, ?_⟩
    · have := List.find?_some hfound
      simpa [List.isEmpty_iff] using this
    · simp [add_supervisor_to_fgraph, hfound]
  · have hres : add_supervisor_to_fgraph g specs true false has_destroyers =
        .ok { attachedDestroyHandler := true
              protectedVars := ((specs.zip g.fInputs).filter
                (fun p => !(p.1.mutable || (true && has_destroyers p.2)))).map (·.2) } := by
      simp [add_supervisor_to_fgraph, hfound, hlen]
    exact ⟨_, hres, rfl⟩

theorem extractUpdatesAux_eq (specs : List SymbolicInput) :
    ∀ i0 out0, extractUpdatesAux (List.enumFrom i0 specs) out0 =
      (specs.filterMap (·.update), offsetZip out0 (updateInputPositions i0 specs)) := by
  induction specs with
  | nil => intro i0 out0; rfl
  | cons spec rest ih =>
    intro i0 out0
    rcases hu : spec.update with _ | u
    · simp only [List.enumFrom, extractUpdatesAux, hu, List.filterMap_cons,
        updateInputPositions, List.filterMap_cons, Option.isSome_none, if_neg]
      have := ih (i0 + 1) out0
      simp only [updateInputPositions] at this
      simpa [hu] using this
    · have := ih (i0 + 1) (out0 + 1)
      simp only [updateInputPositions] at this
      simp [List.enumFrom, extractUpdatesAux, hu, updateInputPositions, this, offsetZip]

/-- **C5.** `std_fgraph` appends to the graph's outputs one update output per
input specification whose update field is non-`None`, in input order; the
update mapping sends the update output's position (starting at the length of
the declared output list) to the position of the input it updates; and
exactly those updates are returned as the found-updates list. -/
theorem std_fgraph_updates_spec (input_specs : List SymbolicInput)
    (output_specs : List Nat) :
    std_fgraph input_specs output_specs =
      { fg_outputs := output_specs ++ input_specs.filterMap (·.update)
        update_mapping :=
          offsetZip output_specs.length (updateInputPositions 0 input_specs)
        found_updates := input_specs.filterMap (·.update) } := by
  simp [std_fgraph, extractUpdatesAux_eq]

theorem required_counterexample :
    ¬(requiredOf c8CexInput = true ↔
      (c8CexInput.value = none ∧ c8CexInput.update = none)) := by
  decide

/-- **C8 (amended).** Every input is classified required exactly when it has
no default value (the update field is not consulted); classified refeed
exactly when it has a non-storage-cell (plain) default value and no update;
and no input is ever both required and refeed. -/
theorem required_refeed_spec (inp : SymbolicInput) :
    (requiredOf inp = true ↔ inp.value = none) ∧
    (refeedOf inp = true ↔
      ((∃ v, inp.value = some (.plainVal v)) ∧ inp.update = none)) ∧
    ¬(requiredOf inp = true ∧ refeedOf inp = true) := by
  rcases hv : inp.value with _ | ⟨c⟩ | ⟨v⟩ <;>
    rcases hu : inp.update with _ | u <;>
      simp [requiredOf, refeedOf, isContainerDefault, hv, hu]

theorem findValidationError_eq (cells : List Cell) :
    findValidationError cells = ((List.enumFrom 0 cells).filterMap cellViolation).head? := by
  rfl

theorem restore_defaults_refeed (cells : List Cell) :
    ∀ c ∈ restore_defaults cells, c.refeed = true → c.storage = c.defaultVal := by
  intro c hc hr
  unfold restore_defaults at hc
  obtain ⟨c0, _, rfl⟩ := List.mem_map.mp hc
  by_cases h0 : c0.refeed
  · simp [h0]
  · simp only [h0, if_false] at hr ⊢
    exact absurd hr (by simp [h0])

theorem findValidationError_kinds {cells : List Cell} {e : CallErr}
    (h : findValidationError cells = some e) :
    ∃ i, e = .missingInput i ∨ e = .multipleValues i ∨ e = .implicitProvided i := by
  rw [findValidationError_eq] at h
  have hmem : e ∈ (List.enumFrom 0 cells).filterMap cellViolation :=
    List.mem_of_mem_head? (Option.mem_def.mpr h)
  obtain ⟨p, _, hp⟩ := List.mem_filterMap.mp hmem
  unfold cellViolation at hp
  split at hp
  · exact ⟨p.1, Or.inl (by simpa using hp.symm)⟩
  · split at hp
    · exact ⟨p.1, Or.inr (Or.inl (by simpa using hp.symm))⟩
    · split at hp
      · exact ⟨p.1, Or.inr (Or.inr (by simpa using hp.symm))⟩
      · exact absurd hp (by simp)

theorem findValidationError_isSome {cells : List Cell} {p : Nat × Cell}
    (hmem : p ∈ List.enumFrom 0 cells) {e : CallErr} (hviol : cellViolation p = some e) :
    (findValidationError cells).isSome := by
  rw [findValidationError_eq]
  have hne : (List.enumFrom 0 cells).filterMap cellViolation ≠ [] := by
    intro hnil
    have : e ∈ (List.enumFrom 0 cells).filterMap cellViolation :=
      List.mem_filterMap.mpr ⟨p, hmem, hviol⟩
    rw [hnil] at this
    exact absurd this (by simp)
  rw [Option.isSome_iff_exists]
  rcases hl : (List.enumFrom 0 cells).filterMap cellViolation with _ | ⟨a, rest⟩
  · exact absurd hl hne
  · exact ⟨a, rfl⟩

theorem too_many_no_restore_counterexample :
    (Function_call c4CexFd (fun _ _ => false) (fun _ v => some v) (fun _ _ _ => false)
        id [some 42] [c4CexCell] [some 1, some 2] [] none).ret =
      .error .tooManyArgs ∧
    storageAt (Function_call c4CexFd (fun _ _ => false) (fun _ v => some v)
        (fun _ _ _ => false) id [some 42] [c4CexCell] [some 1, some 2] [] none).cells 0 =
      some 5 ∧
    c4CexCell.refeed = true ∧ c4CexCell.defaultVal = some 7 ∧ some 5 ≠ some (7 : Val) := by
  refine ⟨rfl, rfl, rfl, rfl, by decide⟩

/-- **C4 (amended).** For every call not in trust-input mode: (a) when more
positional-plus-keyword arguments are given than declared inputs, the call
raises a `TypeError` before any storage cell is written, leaving every
stored value exactly as at call entry (defaults are *not* re-applied);
(b) when argument collection succeeds and some cell violates a contract
(required input omitted, input provided more than once, value supplied for
an implicit input), the call raises a `TypeError` of exactly those kinds and
every refeed input's default value is restored before the error propagates;
and a violation always raises. -/
theorem call_contract_violation_spec (fd : FunctionData)
    (is_super : Nat → Nat → Bool) (filterFn : Nat → Val → Option Val)
    (mayShare : Nat → Option Val → Option Val → Bool) (copyFn : Val → Val)
    (vmOut : List (Option Val)) (cells0 : List Cell)
    (args : List (Option Val)) (kwargs : List (String × Option Val))
    (subset : Option (List Nat))
    (htrust : fd.trust_input = false) :
    (args.length + kwargs.length > cells0.length →
      Function_call fd is_super filterFn mayShare copyFn vmOut cells0 args kwargs subset =
        { ret := .error .tooManyArgs
          cells := cells0.map (fun c => { c with provided := 0 }) } ∧
      ∀ i, storageAt (cells0.map (fun c => { c with provided := 0 })) i =
        storageAt cells0 i) ∧
    (∀ cells2 cells3 e,
      args.length + kwargs.length ≤ cells0.length →
      setPositional filterFn 0 (cells0.map (fun c => { c with provided := 0 })) args =
        (cells2, none) →
      applyKwargs filterFn fd.inputs cells2 kwargs = (cells3, none) →
      findValidationError (aliasingCopyPhase mayShare copyFn
        (potential_aliased_input_groups is_super fd.inputs) cells3) = some e →
      Function_call fd is_super filterFn mayShare copyFn vmOut cells0 args kwargs subset =
        { ret := .error e
          cells := restore_defaults (aliasingCopyPhase mayShare copyFn
            (potential_aliased_input_groups is_super fd.inputs) cells3) } ∧
      (∃ i, e = .missingInput i ∨ e = .multipleValues i ∨ e = .implicitProvided i) ∧
      (∀ c ∈ restore_defaults (aliasingCopyPhase mayShare copyFn
          (potential_aliased_input_groups is_super fd.inputs) cells3),
        c.refeed = true → c.storage = c.defaultVal)) ∧
    (∀ cells4 p e2, p ∈ List.enumFrom 0 cells4 → cellViolation p = some e2 →
      (findValidationError cells4).isSome) := by
  refine ⟨?_, ?_, ?_⟩
  · intro hgt
    constructor
    · have hlen : ¬(args.length + kwargs.length ≤
          (cells0.map (fun c => { c with provided := 0 })).length) := by
        rw [List.length_map]
        omega
      simp only [Function_call, Function_call_core, htrust, Bool.false_eq_true, if_false,
        if_pos (by rw [List.length_map]; omega : args.length + kwargs.length >
          (cells0.map (fun c => { c with provided := 0 })).length)]
    · intro i
      unfold storageAt
      rcases h : cells0[i]? with _ | c
      · simp [List.getElem?_map, h]
      · simp [List.getElem?_map, h]
  · intro cells2 cells3 e hle hpos hkw hval
    refine ⟨?_, findValidationError_kinds hval, restore_defaults_refeed _⟩
    have hnotgt : ¬(args.length + kwargs.length >
        (cells0.map (fun c => { c with provided := 0 })).length) := by
      rw [List.length_map]
      omega
    simp only [Function_call, Function_call_core, htrust, Bool.false_eq_true, if_false,
      if_neg hnotgt, hpos, hkw, hval]
  · intro cells4 p e2 hmem hviol
    exact findValidationError_isSome hmem hviol

theorem call_contract_violation_spec_witness :
    c4WitFd.trust_input = false ∧
    Function_call c4WitFd (fun _ _ => false) (fun _ v => some v) (fun _ _ _ => false)
        id [some 42] [c4WitCell] [] [] none =
      { ret := .error (.missingInput 0), cells := restore_defaults [c4WitCell] } :=
  ⟨rfl,
    ((call_contract_violation_spec c4WitFd (fun _ _ => false) (fun _ v => some v)
        (fun _ _ _ => false) id [some 42] [c4WitCell] [] [] none rfl).2.1
      [c4WitCell] [c4WitCell] (.missingInput 0) (by decide) rfl rfl rfl).1⟩

/-! ## C6: ambiguous names in the finder -/

theorem assocFindK_cons (k2 : FinderKey) (v : FinderVal)
    (m : List (FinderKey × FinderVal)) (k : FinderKey) :
    assocFindK ((k2, v) :: m) k = if k2 = k then some v else assocFindK m k := by
  by_cases h : k2 = k <;> simp [assocFindK, List.find?_cons, h]

theorem assocFindK_cons_ne {k2 k : FinderKey} (h : k2 ≠ k) (v : FinderVal)
    (m : List (FinderKey × FinderVal)) :
    assocFindK ((k2, v) :: m) k = assocFindK m k := by
  rw [assocFindK_cons, if_neg h]

/-- Index lookups below the processed range fall through to the
accumulator. -/
theorem buildFinderGo_idx_lt (rest : List SymbolicInput) :
    ∀ i0 m j, j < i0 →
      assocFindK (buildFinderGo rest i0 m) (.idx j) = assocFindK m (.idx j) := by
  induction rest with
  | nil => intro i0 m j _; rfl
  | cons inp rest ih =>
    intro i0 m j hj
    simp only [buildFinderGo]
    rw [ih (i0 + 1) _ j (by omega)]
    rw [assocFindK_cons_ne (by simp), assocFindK_cons_ne (by simp),
      assocFindK_cons_ne (by simp [Nat.ne_of_gt hj])]

/-- **Index lookups resolve to the cell at that position.** -/
theorem buildFinderGo_idx (rest : List SymbolicInput) :
    ∀ i0 m j, i0 ≤ j → j < i0 + rest.length →
      assocFindK (buildFinderGo rest i0 m) (.idx j) = some (.cell j) := by
  induction rest with
  | nil => intro i0 m j h1 h2; simp at h2; omega
  | cons inp rest ih =>
    intro i0 m j h1 h2
    rcases Nat.eq_or_lt_of_le h1 with heq | hlt
    · subst heq
      simp only [buildFinderGo]
      rw [buildFinderGo_idx_lt rest (i0 + 1) _ i0 (by omega)]
      rw [assocFindK_cons_ne (by simp), assocFindK_cons_ne (by simp),
        assocFindK_cons (FinderKey.idx i0), if_pos rfl]
    · simp only [buildFinderGo]
      refine ih (i0 + 1) _ j (by omega) ?_
      simp only [List.length_cons] at h2
      omega

/-- Name lookups for a name not occurring among the remaining inputs fall
through to the accumulator. -/
theorem buildFinderGo_name_absent (rest : List SymbolicInput) :
    ∀ i0 m nm, (∀ inp ∈ rest, inp.name ≠ nm) →
      assocFindK (buildFinderGo rest i0 m) (.name nm) = assocFindK m (.name nm) := by
  induction rest with
  | nil => intro i0 m nm _; rfl
  | cons inp rest ih =>
    intro i0 m nm habs
    simp only [buildFinderGo]
    rw [ih (i0 + 1) _ nm (fun x hx => habs x (List.mem_cons_of_mem _ hx))]
    rw [assocFindK_cons_ne (by simp [habs inp (List.mem_cons_self _ _)]),
      assocFindK_cons_ne (by simp), assocFindK_cons_ne (by simp)]

/-- A name already present as a key and occurring at least once more among
the remaining inputs resolves to the `DUPLICATE` sentinel. -/
theorem buildFinderGo_name_present_dup (rest : List SymbolicInput) :
    ∀ i0 m nm, 1 ≤ rest.countP (fun inp => inp.name == nm) →
      (assocFindK m (.name nm)).isSome →
      assocFindK (buildFinderGo rest i0 m) (.name nm) = some .dup := by
  induction rest with
  | nil => intro i0 m nm hcount _; simp [List.countP_nil] at hcount
  | cons inp rest ih =>
    intro i0 m nm hcount hsome
    by_cases heq : inp.name = nm
    · simp only [buildFinderGo]
      have hm2 : assocFindK ((FinderKey.var inp.var, FinderVal.cell i0) ::
          (FinderKey.idx i0, FinderVal.cell i0) :: m) (.name inp.name) =
          assocFindK m (.name inp.name) := by
        rw [assocFindK_cons_ne (by simp), assocFindK_cons_ne (by simp)]
      rw [heq] at hm2
      subst heq
      rw [hm2]
      obtain ⟨fv, hfv⟩ := Option.isSome_iff_exists.mp hsome
      rw [hfv]
      by_cases hrest : 1 ≤ rest.countP (fun x => x.name == inp.name)
      · exact ih (i0 + 1) _ inp.name hrest (by rw [assocFindK_cons, if_pos rfl]; rfl)
      · have habs : ∀ x ∈ rest, x.name ≠ inp.name := by
          intro x hx hxe
          exact hrest (Nat.one_le_iff_ne_zero.mpr (by
            intro hz
            have := List.countP_eq_zero.mp hz x hx
            simp [hxe] at this))
        rw [buildFinderGo_name_absent rest (i0 + 1) _ inp.name habs]
        rw [assocFindK_cons, if_pos rfl]
    · simp only [buildFinderGo]
      have hb : (inp.name == nm) = false := by simp [heq]
      have hcount2 : 1 ≤ rest.countP (fun x => x.name == nm) := by
        rw [List.countP_cons_of_neg _ _ (by simp [heq])] at hcount
        omega
      refine ih (i0 + 1) _ nm hcount2 ?_
      rw [assocFindK_cons_ne (by simp [heq]), assocFindK_cons_ne (by simp),
        assocFindK_cons_ne (by simp)]
      exact hsome

/-- **A name shared by two or more inputs resolves to `DUPLICATE`.** -/
theorem buildFinderGo_name_dup (rest : List SymbolicInput) :
    ∀ i0 m nm, 2 ≤ rest.countP (fun inp => inp.name == nm) →
      assocFindK (buildFinderGo rest i0 m) (.name nm) = some .dup := by
  induction rest with
  | nil => intro i0 m nm hcount; simp [List.countP_nil] at hcount
  | cons inp rest ih =>
    intro i0 m nm hcount
    by_cases heq : inp.name = nm
    · simp only [buildFinderGo]
      have hrest : 1 ≤ rest.countP (fun x => x.name == nm) := by
        rw [List.countP_cons_of_pos _ _ (by simp [heq])] at hcount
        omega
      refine buildFinderGo_name_present_dup rest (i0 + 1) _ nm hrest ?_
      subst heq
      rw [assocFindK_cons, if_pos rfl]
      rfl
    · simp only [buildFinderGo]
      have hb : (inp.name == nm) = false := by simp [heq]
      have hcount2 : 2 ≤ rest.countP (fun x => x.name == nm) := by
        rw [List.countP_cons_of_neg _ _ (by simp [heq])] at hcount
        omega
      exact ih (i0 + 1) _ nm hcount2

/-- Variable lookups for a variable not owned by the remaining inputs fall
through. -/
theorem buildFinderGo_var_absent (rest : List SymbolicInput) :
    ∀ i0 m v, (∀ inp ∈ rest, inp.var ≠ v) →
      assocFindK (buildFinderGo rest i0 m) (.var v) = assocFindK m (.var v) := by
  induction rest with
  | nil => intro i0 m v _; rfl
  | cons inp rest ih =>
    intro i0 m v habs
    simp only [buildFinderGo]
    rw [ih (i0 + 1) _ v (fun x hx => habs x (List.mem_cons_of_mem _ hx))]
    rw [assocFindK_cons_ne (by simp), assocFindK_cons_ne
      (by simp [habs inp (List.mem_cons_self _ _)]), assocFindK_cons_ne (by simp)]

/-- **With pairwise distinct input variables, a variable lookup resolves to
that input's cell.** -/
theorem buildFinderGo_var (rest : List SymbolicInput) :
    ∀ i0 m j inp, rest[j]? = some inp →
      (∀ k, j < k → ∀ inp2, rest[k]? = some inp2 → inp2.var ≠ inp.var) →
      assocFindK (buildFinderGo rest i0 m) (.var inp.var) = some (.cell (i0 + j)) := by
  induction rest with
  | nil => intro i0 m j inp h _; simp at h
  | cons inp0 rest ih =>
    intro i0 m j inp hget hdistinct
    rcases j with _ | j
    · have hinp : inp0 = inp := by simpa using hget
      subst hinp
      simp only [buildFinderGo]
      have habs : ∀ x ∈ rest, x.var ≠ inp0.var := by
        intro x hx
        obtain ⟨k, hkx⟩ := List.mem_iff_getElem?.mp hx
        exact hdistinct (k + 1) (by omega) x (by simpa using hkx)
      rw [buildFinderGo_var_absent rest (i0 + 1) _ inp0.var habs]
      rw [assocFindK_cons_ne (by simp), assocFindK_cons, if_pos rfl]
      simp
    · simp only [buildFinderGo]
      rw [ih (i0 + 1) _ j inp (by simpa using hget)
        (fun k hk inp2 hget2 => hdistinct (k + 1) (by omega) inp2 (by simpa using hget2))]
      have harith : i0 + 1 + j = i0 + (j + 1) := by omega
      rw [harith]

theorem Function_setitem_ambiguous (filterFn : Nat → Val → Option Val)
    (inputs : List SymbolicInput) (cells : List Cell) (s : String) (v : Option Val)
    (hdup : 2 ≤ inputs.countP (fun inp => inp.name == some s)) :
    Function_setitem filterFn inputs cells s v = .error (.ambiguousName s) := by
  unfold Function_setitem buildFinder
  rw [buildFinderGo_name_dup inputs 0 [] (some s) hdup]

/-- **C6.** On a function whose declared inputs include two inputs with the
same non-`None` name: any lookup or assignment by that name raises the
ambiguity error; a call supplying that name as a keyword argument raises it
in every mode, including trust-input mode; while lookups by input position,
and (when the input variables are pairwise distinct) by the input's
variable, still resolve to the correct storage cell. -/
theorem duplicate_name_ambiguity_spec (fd : FunctionData)
    (is_super : Nat → Nat → Bool) (filterFn : Nat → Val → Option Val)
    (mayShare : Nat → Option Val → Option Val → Bool) (copyFn : Val → Val)
    (vmOut : List (Option Val)) (cells : List Cell)
    (s : String) (v : Option Val)
    (kws : List (String × Option Val)) (subset : Option (List Nat))
    (hdup : 2 ≤ fd.inputs.countP (fun inp => inp.name == some s))
    (hklen : 1 + kws.length ≤ cells.length) :
    Function_getitem fd.inputs cells (.name (some s)) = .errAmbiguous ∧
    Function_setitem filterFn fd.inputs cells s v = .error (.ambiguousName s) ∧
    (∀ tr : Bool,
      (Function_call { fd with trust_input := tr } is_super filterFn mayShare copyFn
        vmOut cells [] ((s, v) :: kws) subset).ret = .error (.ambiguousName s)) ∧
    (∀ j, j < fd.inputs.length →
      Function_getitem fd.inputs cells (.idx j) = .okGet (storageAt cells j)) ∧
    ((fd.inputs.map (·.var)).Nodup →
      ∀ j inp, fd.inputs[j]? = some inp →
        Function_getitem fd.inputs cells (.var inp.var) = .okGet (storageAt cells j)) := by
  have hname : assocFindK (buildFinder fd.inputs) (.name (some s)) = some .dup :=
    buildFinderGo_name_dup fd.inputs 0 [] (some s) hdup
  refine ⟨?_, Function_setitem_ambiguous filterFn fd.inputs cells s v hdup, ?_, ?_, ?_⟩
  · unfold Function_getitem
    rw [hname]
  · intro tr
    have hset : ∀ cs : List Cell,
        Function_setitem filterFn fd.inputs cs s v = .error (.ambiguousName s) :=
      fun cs => Function_setitem_ambiguous filterFn fd.inputs cs s v hdup
    rcases tr with _ | _
    · have hnotlt : ¬ cells.length < kws.length + 1 := by omega
      simp [Function_call, Function_call_core, hnotlt, setPositional, applyKwargs, hset]
    · simp [Function_call, Function_call_core, writeTrustArgs, applyKwargs, hset]
  · intro j hj
    unfold Function_getitem buildFinder
    rw [buildFinderGo_idx fd.inputs 0 [] j (by omega) (by omega)]
  · intro hnodup j inp hget
    have hpair := (List.pairwise_iff_getElem.mp hnodup)
    have hdistinct : ∀ k, j < k → ∀ inp2, fd.inputs[k]? = some inp2 →
        inp2.var ≠ inp.var := by
      intro k hk inp2 hget2 heq
      have hjlt : j < fd.inputs.length := (List.getElem?_eq_some.mp hget).1
      have hklt : k < (fd.inputs.map (·.var)).length :=
        (List.getElem?_eq_some.mp (by simp [List.getElem?_map, hget2] :
          (fd.inputs.map (·.var))[k]? = some inp2.var)).1
      have hne := hpair j k (by simpa using hjlt) hklt hk
      apply hne
      obtain ⟨hb1, h1⟩ := List.getElem?_eq_some.mp (show
        (fd.inputs.map (·.var))[j]? = some inp.var by simp [List.getElem?_map, hget])
      obtain ⟨hb2, h2⟩ := List.getElem?_eq_some.mp (show
        (fd.inputs.map (·.var))[k]? = some inp2.var by simp [List.getElem?_map, hget2])
      rw [h1, h2, heq]
    unfold Function_getitem buildFinder
    rw [buildFinderGo_var fd.inputs 0 [] j inp hget hdistinct]
    simp

theorem duplicate_name_ambiguity_spec_witness :
    2 ≤ c6Fd.inputs.countP (fun inp => inp.name == some "x") ∧
    1 + ([] : List (String × Option Val)).length ≤ [c6CellA, c6CellB].length ∧
    (Function_getitem c6Fd.inputs [c6CellA, c6CellB] (.name (some "x")) = .errAmbiguous ∧
     Function_setitem (fun _ w => some w) c6Fd.inputs [c6CellA, c6CellB] "x" (some 9) =
       .error (.ambiguousName "x") ∧
     (∀ tr : Bool,
       (Function_call { c6Fd with trust_input := tr } (fun _ _ => false)
         (fun _ w => some w) (fun _ _ _ => false) id [some 42] [c6CellA, c6CellB]
         [] [("x", some 9)] none).ret = .error (.ambiguousName "x")) ∧
     (∀ j, j < c6Fd.inputs.length →
       Function_getitem c6Fd.inputs [c6CellA, c6CellB] (.idx j) =
         .okGet (storageAt [c6CellA, c6CellB] j)) ∧
     ((c6Fd.inputs.map (·.var)).Nodup →
       ∀ j inp, c6Fd.inputs[j]? = some inp →
         Function_getitem c6Fd.inputs [c6CellA, c6CellB] (.var inp.var) =
           .okGet (storageAt [c6CellA, c6CellB] j))) :=
  ⟨by decide, by decide,
    duplicate_name_ambiguity_spec c6Fd (fun _ _ => false) (fun _ w => some w)
      (fun _ _ _ => false) id [some 42] [c6CellA, c6CellB] "x" (some 9) [] none
      (by decide) (by decide)⟩

/-! ## C10: output-subset restriction and update outputs -/

theorem updateInputPositions_cons (spec : SymbolicInput) (rest : List SymbolicInput)
    (i0 : Nat) :
    updateInputPositions i0 (spec :: rest) =
      (if spec.update.isSome then [i0] else []) ++ updateInputPositions (i0 + 1) rest := by
  rcases hu : spec.update with _ | u <;>
    simp [updateInputPositions, List.enumFrom, List.filterMap_cons, hu]

theorem updateInputPositions_le (specs : List SymbolicInput) :
    ∀ i0 x, x ∈ updateInputPositions i0 specs → i0 ≤ x := by
  induction specs with
  | nil => intro i0 x h; simp [updateInputPositions] at h
  | cons spec rest ih =>
    intro i0 x h
    rw [updateInputPositions_cons] at h
    rcases List.mem_append.mp h with h1 | h2
    · rcases hu : spec.update.isSome with _ | _ <;> rw [hu] at h1
      · simp at h1
      · simp at h1
        omega
    · have := ih (i0 + 1) x h2
      omega

theorem updateInputPositions_pairwise (specs : List SymbolicInput) :
    ∀ i0, List.Pairwise (· < ·) (updateInputPositions i0 specs) := by
  induction specs with
  | nil => intro i0; simp [updateInputPositions]
  | cons spec rest ih =>
    intro i0
    rw [updateInputPositions_cons]
    rcases hu : spec.update.isSome with _ | _
    · simpa using ih (i0 + 1)
    · simp only [if_pos rfl, List.singleton_append]
      refine List.pairwise_cons.mpr ⟨?_, ih (i0 + 1)⟩
      intro x hx
      have := updateInputPositions_le rest (i0 + 1) x hx
      omega

theorem storageAt_set_self (cells : List Cell) (i : Nat) (v : Option Val)
    (hi : i < cells.length) : storageAt (setStorageAt cells i v) i = v := by
  unfold setStorageAt storageAt
  rw [List.getElem?_eq_getElem hi]
  simp [List.getElem?_set_self, hi]

theorem storageAt_set_ne (cells : List Cell) (i j : Nat) (v : Option Val)
    (hij : i ≠ j) : storageAt (setStorageAt cells i v) j = storageAt cells j := by
  unfold setStorageAt storageAt
  rcases h : cells[i]? with _ | c
  · rfl
  · rw [List.getElem?_set_ne hij]

theorem setStorageAt_length (cells : List Cell) (i : Nat) (v : Option Val) :
    (setStorageAt cells i v).length = cells.length := by
  unfold setStorageAt
  rcases h : cells[i]? with _ | c
  · rfl
  · simp

theorem applyUpdates_preserve (outs : List (Option Val)) :
    ∀ (upairs : List (Nat × Nat)) (cells : List Cell) (j : Nat),
      j ∉ upairs.map (·.2) →
      storageAt (applyUpdates cells upairs outs) j = storageAt cells j := by
  intro upairs
  induction upairs with
  | nil => intro cells j _; rfl
  | cons p rest ih =>
    intro cells j hj
    simp only [List.map_cons, List.mem_cons] at hj
    push_neg at hj
    simp only [applyUpdates, List.foldl_cons]
    rw [show (List.foldl (fun cs q => setStorageAt cs q.2 (outs.getD q.1 none))
        (setStorageAt cells p.2 (outs.getD p.1 none)) rest) =
      applyUpdates (setStorageAt cells p.2 (outs.getD p.1 none)) rest outs from rfl]
    rw [ih _ j hj.2, storageAt_set_ne _ _ _ _ (fun h => hj.1 h.symm)]

/-- The update-publication loop writes `outputs[oi]` into the storage of the
input at position `ii`, for every recorded update pair. -/
theorem applyUpdates_writes (outs : List (Option Val)) :
    ∀ (upairs : List (Nat × Nat)) (cells : List Cell) (oi ii : Nat),
      List.Pairwise (· < ·) (upairs.map (·.2)) →
      (oi, ii) ∈ upairs → ii < cells.length →
      storageAt (applyUpdates cells upairs outs) ii = outs.getD oi none := by
  intro upairs
  induction upairs with
  | nil => intro cells oi ii _ hmem _; simp at hmem
  | cons p rest ih =>
    intro cells oi ii hpw hmem hlen
    simp only [List.map_cons, List.pairwise_cons] at hpw
    simp only [applyUpdates, List.foldl_cons]
    rw [show (List.foldl (fun cs q => setStorageAt cs q.2 (outs.getD q.1 none))
        (setStorageAt cells p.2 (outs.getD p.1 none)) rest) =
      applyUpdates (setStorageAt cells p.2 (outs.getD p.1 none)) rest outs from rfl]
    rcases List.mem_cons.mp hmem with rfl | hmem2
    · have hnot : ii ∉ rest.map (·.2) := by
        intro hmm
        exact absurd (hpw.1 ii hmm) (by omega)
      rw [applyUpdates_preserve outs rest _ ii hnot]
      exact storageAt_set_self cells ii _ hlen
    · refine ih _ oi ii hpw.2 hmem2 ?_
      rw [setStorageAt_length]
      exact hlen

theorem update_input_storage_snd (nOutputs : Nat) (inputs : List SymbolicInput) :
    (update_input_storage nOutputs inputs).map (·.2) = updateInputPositions 0 inputs := by
  unfold update_input_storage
  rw [List.map_snd_zip]
  rw [List.length_range']

theorem Function_call_core_ok_outs {fd : FunctionData}
    {is_super : Nat → Nat → Bool} {filterFn : Nat → Val → Option Val}
    {mayShare : Nat → Option Val → Option Val → Bool} {copyFn : Val → Val}
    {vmOut : List (Option Val)} {cells0 : List Cell}
    {args : List (Option Val)} {kwargs : List (String × Option Val)}
    {cs : List Cell} {outs : List (Option Val)}
    (h : Function_call_core fd is_super filterFn mayShare copyFn vmOut cells0 args kwargs =
      .ok (cs, outs)) :
    outs = vmOut.take (n_returned_outputs fd.nOutputs fd.inputs) := by
  simp only [Function_call_core] at h
  repeat' split at h
  all_goals simp_all

/-- **C10.** For every call with an output-subset restriction: the final
storage cells (in particular the persistent cells written back by the update
outputs) are identical to those of the unrestricted call; the subset
selection is applied only to the first `n_returned_outputs` returned values
and never to the update outputs; and at the publication step every recorded
update pair writes the update output's value into the updated input's
storage cell. -/
theorem output_subset_spec (fd : FunctionData)
    (is_super : Nat → Nat → Bool) (filterFn : Nat → Val → Option Val)
    (mayShare : Nat → Option Val → Option Val → Bool) (copyFn : Val → Val)
    (vmOut : List (Option Val)) (cells0 : List Cell)
    (args : List (Option Val)) (kwargs : List (String × Option Val))
    (subset : List Nat)
    (hok : ∃ cs outs,
      Function_call_core fd is_super filterFn mayShare copyFn vmOut cells0 args kwargs =
        .ok (cs, outs))
    (hrn : fd.return_none = false) (hus : fd.unpack_single = false) :
    (Function_call fd is_super filterFn mayShare copyFn vmOut cells0 args kwargs
        (some subset)).cells =
      (Function_call fd is_super filterFn mayShare copyFn vmOut cells0 args kwargs
        none).cells ∧
    (Function_call fd is_super filterFn mayShare copyFn vmOut cells0 args kwargs
        (some subset)).ret =
      .ok (.listRet (subset.map fun i =>
        (vmOut.take (n_returned_outputs fd.nOutputs fd.inputs)).getD i none)) ∧
    (Function_call fd is_super filterFn mayShare copyFn vmOut cells0 args kwargs
        none).ret =
      .ok (.listRet (vmOut.take (n_returned_outputs fd.nOutputs fd.inputs))) ∧
    (∀ (cells : List Cell) (oi ii : Nat),
      (oi, ii) ∈ update_input_storage fd.nOutputs fd.inputs → ii < cells.length →
      storageAt (applyUpdates cells (update_input_storage fd.nOutputs fd.inputs) vmOut) ii =
        vmOut.getD oi none) := by
  obtain ⟨cs, outs, hcore⟩ := hok
  have houts := Function_call_core_ok_outs hcore
  subst houts
  refine ⟨?_, ?_, ?_, ?_⟩
  · simp only [Function_call, hcore]
  · simp only [Function_call, hcore, makeReturn, hrn, hus]
    simp
  · simp only [Function_call, hcore, makeReturn, hrn, hus]
    simp
  · intro cells oi ii hmem hlen
    refine applyUpdates_writes vmOut _ cells oi ii ?_ hmem hlen
    rw [update_input_storage_snd]
    exact updateInputPositions_pairwise fd.inputs 0

theorem output_subset_spec_witness :
    (∃ cs outs, Function_call_core c10Fd (fun _ _ => false) (fun _ v => some v)
        (fun _ _ _ => false) id [some 10, some 11, some 77] [c10Cell0, c10Cell1]
        [some 0, some 1] [] = .ok (cs, outs)) ∧
    c10Fd.return_none = false ∧ c10Fd.unpack_single = false ∧
    ((Function_call c10Fd (fun _ _ => false) (fun _ v => some v) (fun _ _ _ => false)
        id [some 10, some 11, some 77] [c10Cell0, c10Cell1] [some 0, some 1] []
        (some [1])).cells =
      (Function_call c10Fd (fun _ _ => false) (fun _ v => some v) (fun _ _ _ => false)
        id [some 10, some 11, some 77] [c10Cell0, c10Cell1] [some 0, some 1] []
        none).cells ∧
     (Function_call c10Fd (fun _ _ => false) (fun _ v => some v) (fun _ _ _ => false)
        id [some 10, some 11, some 77] [c10Cell0, c10Cell1] [some 0, some 1] []
        (some [1])).ret =
      .ok (.listRet ([1].map fun i =>
        (([some 10, some 11, some 77] : List (Option Val)).take
          (n_returned_outputs c10Fd.nOutputs c10Fd.inputs)).getD i none)) ∧
     (Function_call c10Fd (fun _ _ => false) (fun _ v => some v) (fun _ _ _ => false)
        id [some 10, some 11, some 77] [c10Cell0, c10Cell1] [some 0, some 1] []
        none).ret =
      .ok (.listRet (([some 10, some 11, some 77] : List (Option Val)).take
        (n_returned_outputs c10Fd.nOutputs c10Fd.inputs))) ∧
     (∀ (cells : List Cell) (oi ii : Nat),
        (oi, ii) ∈ update_input_storage c10Fd.nOutputs c10Fd.inputs →
        ii < cells.length →
        storageAt (applyUpdates cells (update_input_storage c10Fd.nOutputs c10Fd.inputs)
          [some 10, some 11, some 77]) ii =
          ([some 10, some 11, some 77] : List (Option Val)).getD oi none)) :=
  ⟨⟨_, _, rfl⟩, rfl, rfl,
    output_subset_spec c10Fd (fun _ _ => false) (fun _ v => some v) (fun _ _ _ => false)
      id [some 10, some 11, some 77] [c10Cell0, c10Cell1] [some 0, some 1] [] [1]
      ⟨_, _, rfl⟩ rfl rfl⟩

/-! ## C2: argument-level aliasing detection and defensive copies -/

theorem insertGrouped_flatten_perm {α : Type} (t : α → List α → Bool) (x : α)
    (gs : List (List α)) :
    (insertGrouped t x gs).flatten.Perm (x :: gs.flatten) := by
  induction gs with
  | nil => simp [insertGrouped]
  | cons g gs ih =>
    simp only [insertGrouped]
    by_cases h : t x g
    · rw [if_pos h]
      simp only [List.flatten_cons, List.append_assoc, List.singleton_append]
      exact List.perm_middle
    · rw [if_neg h]
      simp only [List.flatten_cons]
      exact ((ih.append_left g).trans List.perm_middle)

theorem foldl_insertGrouped_flatten_perm {α : Type} (t : α → List α → Bool)
    (xs : List α) :
    ∀ gs, (xs.foldl (fun gs x => insertGrouped t x gs) gs).flatten.Perm
      (xs ++ gs.flatten) := by
  induction xs with
  | nil => intro gs; simp
  | cons x xs ih =>
    intro gs
    simp only [List.foldl_cons, List.cons_append]
    refine (ih (insertGrouped t x gs)).trans ?_
    refine ((insertGrouped_flatten_perm t x gs).append_left xs).trans ?_
    exact List.perm_middle

theorem mem_tail_append_right {α : Type} {y : α} {g : List α} (x : α)
    (h : y ∈ g.tail) : y ∈ (g ++ [x]).tail := by
  rcases g with _ | ⟨a, g⟩
  · simp at h
  · simp only [List.cons_append, List.tail_cons] at h ⊢
    exact List.mem_append_left _ h

theorem insertGrouped_ne_nil {α : Type} (t : α → List α → Bool) (x : α) :
    ∀ gs : List (List α), (∀ g ∈ gs, g ≠ []) →
      ∀ g ∈ insertGrouped t x gs, g ≠ [] := by
  intro gs
  induction gs with
  | nil =>
    intro _ g hg
    simp only [insertGrouped, List.mem_singleton] at hg
    subst hg
    simp
  | cons g0 gs ih =>
    intro hne g hg
    simp only [insertGrouped] at hg
    by_cases h : t x g0
    · rw [if_pos h] at hg
      rcases List.mem_cons.mp hg with rfl | hmem
      · simp
      · exact hne g (List.mem_cons_of_mem _ hmem)
    · rw [if_neg h] at hg
      rcases List.mem_cons.mp hg with rfl | hmem
      · exact hne g (List.mem_cons_self _ _)
      · exact ih (fun g2 hg2 => hne g2 (List.mem_cons_of_mem _ hg2)) g hmem

theorem foldl_insertGrouped_ne_nil {α : Type} (t : α → List α → Bool) (xs : List α) :
    ∀ gs, (∀ g ∈ gs, g ≠ []) →
      ∀ g ∈ xs.foldl (fun gs x => insertGrouped t x gs) gs, g ≠ [] := by
  induction xs with
  | nil => intro gs h; simpa using h
  | cons x xs ih =>
    intro gs h
    simp only [List.foldl_cons]
    exact ih _ (insertGrouped_ne_nil t x gs h)

/-- If some existing group passes the test, the inserted element lands in
the non-head portion of a group. -/
theorem insertGrouped_tail_of_test {α : Type} (t : α → List α → Bool) (x : α) :
    ∀ gs : List (List α), (∀ g ∈ gs, g ≠ []) → (∃ g ∈ gs, t x g = true) →
      ∃ g2 ∈ insertGrouped t x gs, x ∈ g2.tail := by
  intro gs
  induction gs with
  | nil => rintro _ ⟨g, hg, _⟩; simp at hg
  | cons g gs ih =>
    rintro hne ⟨g0, hg0, ht0⟩
    simp only [insertGrouped]
    by_cases h : t x g
    · rw [if_pos h]
      refine ⟨g ++ [x], List.mem_cons_self _ _, ?_⟩
      have hgne : g ≠ [] := hne g (List.mem_cons_self _ _)
      rcases g with _ | ⟨a, g⟩
      · exact absurd rfl hgne
      · simp
    · rw [if_neg h]
      rcases List.mem_cons.mp hg0 with rfl | hmem
      · exact absurd ht0 (by simp [h])
      · obtain ⟨g2, hg2, hx2⟩ :=
          ih (fun g2 hg2 => hne g2 (List.mem_cons_of_mem _ hg2)) ⟨g0, hmem, ht0⟩
        exact ⟨g2, List.mem_cons_of_mem _ hg2, hx2⟩

/-- Elements already sitting in a non-head position stay there. -/
theorem insertGrouped_tail_mono {α : Type} (t : α → List α → Bool) (x y : α) :
    ∀ gs : List (List α), (∃ g ∈ gs, y ∈ g.tail) →
      ∃ g2 ∈ insertGrouped t x gs, y ∈ g2.tail := by
  intro gs
  induction gs with
  | nil => rintro ⟨g, hg, _⟩; simp at hg
  | cons g gs ih =>
    rintro ⟨g0, hg0, hy0⟩
    simp only [insertGrouped]
    by_cases h : t x g
    · rw [if_pos h]
      rcases List.mem_cons.mp hg0 with rfl | hmem
      · exact ⟨g0 ++ [x], List.mem_cons_self _ _, mem_tail_append_right x hy0⟩
      · exact ⟨g0, List.mem_cons_of_mem _ hmem, hy0⟩
    · rw [if_neg h]
      rcases List.mem_cons.mp hg0 with rfl | hmem
      · exact ⟨g0, List.mem_cons_self _ _, hy0⟩
      · obtain ⟨g2, hg2, hy2⟩ := ih ⟨g0, hmem, hy0⟩
        exact ⟨g2, List.mem_cons_of_mem _ hg2, hy2⟩

theorem foldl_insertGrouped_tail_mono {α : Type} (t : α → List α → Bool) (y : α)
    (xs : List α) :
    ∀ gs, (∃ g ∈ gs, y ∈ g.tail) →
      ∃ g2 ∈ xs.foldl (fun gs x => insertGrouped t x gs) gs, y ∈ g2.tail := by
  induction xs with
  | nil => intro gs h; simpa using h
  | cons x xs ih =>
    intro gs h
    simp only [List.foldl_cons]
    exact ih _ (insertGrouped_tail_mono t x y gs h)

theorem copyTailFold_length (copyFn : Val → Val) :
    ∀ (l : List Nat) (cs : List Cell), (copyTailFold copyFn cs l).length = cs.length := by
  intro l
  induction l with
  | nil => intro cs; rfl
  | cons i l ih =>
    intro cs
    simp only [copyTailFold, List.foldl_cons]
    rw [show (List.foldl (fun cs2 i => setStorageAt cs2 i ((storageAt cs2 i).map copyFn))
        (setStorageAt cs i ((storageAt cs i).map copyFn)) l) =
      copyTailFold copyFn (setStorageAt cs i ((storageAt cs i).map copyFn)) l from rfl]
    rw [ih, setStorageAt_length]

theorem copyTailFold_preserve (copyFn : Val → Val) :
    ∀ (l : List Nat) (cs : List Cell) (j : Nat), j ∉ l →
      storageAt (copyTailFold copyFn cs l) j = storageAt cs j := by
  intro l
  induction l with
  | nil => intro cs j _; rfl
  | cons i l ih =>
    intro cs j hj
    simp only [List.mem_cons] at hj
    push_neg at hj
    simp only [copyTailFold, List.foldl_cons]
    rw [show (List.foldl (fun cs2 i => setStorageAt cs2 i ((storageAt cs2 i).map copyFn))
        (setStorageAt cs i ((storageAt cs i).map copyFn)) l) =
      copyTailFold copyFn (setStorageAt cs i ((storageAt cs i).map copyFn)) l from rfl]
    rw [ih _ j hj.2, storageAt_set_ne _ _ _ _ (fun h => hj.1 h.symm)]

theorem copyTailFold_copies (copyFn : Val → Val) :
    ∀ (l : List Nat) (cs : List Cell) (j : Nat), j ∈ l → l.Nodup → j < cs.length →
      storageAt (copyTailFold copyFn cs l) j = (storageAt cs j).map copyFn := by
  intro l
  induction l with
  | nil => intro cs j hj _ _; simp at hj
  | cons i l ih =>
    intro cs j hj hnd hlen
    simp only [copyTailFold, List.foldl_cons]
    rw [show (List.foldl (fun cs2 i => setStorageAt cs2 i ((storageAt cs2 i).map copyFn))
        (setStorageAt cs i ((storageAt cs i).map copyFn)) l) =
      copyTailFold copyFn (setStorageAt cs i ((storageAt cs i).map copyFn)) l from rfl]
    have hndc := List.nodup_cons.mp hnd
    rcases List.mem_cons.mp hj with rfl | hmem
    · rw [copyTailFold_preserve copyFn l _ j hndc.1]
      exact storageAt_set_self cs j _ hlen
    · have hne : i ≠ j := fun h => hndc.1 (h ▸ hmem)
      rw [ih _ j hmem hndc.2 (by rw [setStorageAt_length]; exact hlen)]
      rw [storageAt_set_ne _ _ _ _ hne]

theorem copyGroupTails_length (copyFn : Val → Val) :
    ∀ (groups : List (List Nat)) (cells : List Cell),
      (copyGroupTails copyFn cells groups).length = cells.length := by
  intro groups
  induction groups with
  | nil => intro cells; rfl
  | cons g groups ih =>
    intro cells
    simp only [copyGroupTails, List.foldl_cons]
    by_cases h : g.length > 1
    · rw [if_pos h]
      rw [show (List.foldl (fun cs g => if g.length > 1 then copyTailFold copyFn cs g.tail
          else cs) (copyTailFold copyFn cells g.tail) groups) =
        copyGroupTails copyFn (copyTailFold copyFn cells g.tail) groups from rfl]
      rw [ih, copyTailFold_length]
    · rw [if_neg h]
      exact ih cells

theorem copyGroupTails_preserve (copyFn : Val → Val) :
    ∀ (groups : List (List Nat)) (cells : List Cell) (j : Nat), j ∉ groups.flatten →
      storageAt (copyGroupTails copyFn cells groups) j = storageAt cells j := by
  intro groups
  induction groups with
  | nil => intro cells j _; rfl
  | cons g groups ih =>
    intro cells j hj
    simp only [List.flatten_cons, List.mem_append] at hj
    push_neg at hj
    simp only [copyGroupTails, List.foldl_cons]
    by_cases h : g.length > 1
    · rw [if_pos h]
      rw [show (List.foldl (fun cs g => if g.length > 1 then copyTailFold copyFn cs g.tail
          else cs) (copyTailFold copyFn cells g.tail) groups) =
        copyGroupTails copyFn (copyTailFold copyFn cells g.tail) groups from rfl]
      rw [ih _ j hj.2]
      exact copyTailFold_preserve copyFn g.tail cells j
        (fun hx => hj.1 (List.mem_of_mem_tail hx))
    · rw [if_neg h]
      exact ih cells j hj.2

theorem copyGroupTails_copies (copyFn : Val → Val) :
    ∀ (groups : List (List Nat)) (cells : List Cell) (G : List Nat) (j : Nat),
      groups.flatten.Nodup → G ∈ groups → j ∈ G.tail → j < cells.length →
      storageAt (copyGroupTails copyFn cells groups) j = (storageAt cells j).map copyFn := by
  intro groups
  induction groups with
  | nil => intro cells G j _ hG _ _; simp at hG
  | cons g groups ih =>
    intro cells G j hnd hG hjt hlen
    simp only [List.flatten_cons] at hnd
    have hparts := List.nodup_append.mp hnd
    simp only [copyGroupTails, List.foldl_cons]
    rcases List.mem_cons.mp hG with rfl | hmem
    · have hlen2 : G.length > 1 := by
        rcases G with _ | ⟨a, G⟩
        · simp at hjt
        · rcases G with _ | ⟨b, G⟩
          · simp at hjt
          · simp
      rw [if_pos hlen2]
      rw [show (List.foldl (fun cs g => if g.length > 1 then copyTailFold copyFn cs g.tail
          else cs) (copyTailFold copyFn cells G.tail) groups) =
        copyGroupTails copyFn (copyTailFold copyFn cells G.tail) groups from rfl]
      have hjG : j ∈ G := List.mem_of_mem_tail hjt
      rw [copyGroupTails_preserve copyFn groups _ j (fun hx => hparts.2.2 hjG hx)]
      exact copyTailFold_copies copyFn G.tail cells j hjt
        ((List.Nodup.sublist (List.tail_sublist G)) hparts.1) hlen
    · have hjflat : j ∈ groups.flatten := by
        refine List.mem_flatten.mpr ⟨G, hmem, List.mem_of_mem_tail hjt⟩
      have hjg : j ∉ g := fun hx => hparts.2.2 hx hjflat
      by_cases h : g.length > 1
      · rw [if_pos h]
        rw [show (List.foldl (fun cs g => if g.length > 1 then copyTailFold copyFn cs g.tail
            else cs) (copyTailFold copyFn cells g.tail) groups) =
          copyGroupTails copyFn (copyTailFold copyFn cells g.tail) groups from rfl]
        rw [ih _ G j hparts.2.1 hmem hjt (by rw [copyTailFold_length]; exact hlen)]
        rw [copyTailFold_preserve copyFn g.tail cells j
          (fun hx => hjg (List.mem_of_mem_tail hx))]
      · rw [if_neg h]
        exact ih cells G j hparts.2.1 hmem hjt hlen

theorem groupArgsShareMemory_eq (mayShare : Nat → Option Val → Option Val → Bool)
    (cells : List Cell) (pg : List Nat) :
    groupArgsShareMemory mayShare cells pg =
      pg.foldl (fun gs x => insertGrouped
        (fun i g => g.any (fun j => mayShare i (storageAt cells j) (storageAt cells i)))
        x gs) [] := rfl

theorem processPotentialGroup_length (mayShare : Nat → Option Val → Option Val → Bool)
    (copyFn : Val → Val) (cells : List Cell) (pg : List Nat) :
    (processPotentialGroup mayShare copyFn cells pg).length = cells.length :=
  copyGroupTails_length copyFn _ cells

theorem processPotentialGroup_preserve (mayShare : Nat → Option Val → Option Val → Bool)
    (copyFn : Val → Val) (cells : List Cell) (pg : List Nat) (k : Nat) (hk : k ∉ pg) :
    storageAt (processPotentialGroup mayShare copyFn cells pg) k = storageAt cells k := by
  unfold processPotentialGroup
  refine copyGroupTails_preserve copyFn _ cells k ?_
  intro hmem
  rw [groupArgsShareMemory_eq] at hmem
  have hperm := foldl_insertGrouped_flatten_perm
    (fun i g => g.any (fun j => mayShare i (storageAt cells j) (storageAt cells i))) pg
    ([] : List (List Nat))
  rw [hperm.mem_iff] at hmem
  simp at hmem
  exact hk hmem

/-- Within one potential group: if the argument at position `a` of the group
precedes the argument at position `b`, and the `may_share_memory` test
relates their stored values, then after the group is processed the later
argument's storage has been replaced by a copy. -/
theorem processPotentialGroup_copies (mayShare : Nat → Option Val → Option Val → Bool)
    (copyFn : Val → Val) (cells : List Cell) (pg : List Nat) (i j a b : Nat)
    (hnd : pg.Nodup) (ha : pg[a]? = some i) (hb : pg[b]? = some j) (hab : a < b)
    (hlen : j < cells.length)
    (hshare : mayShare j (storageAt cells i) (storageAt cells j) = true) :
    storageAt (processPotentialGroup mayShare copyFn cells pg) j =
      (storageAt cells j).map copyFn := by
  set t : Nat → List Nat → Bool :=
    fun i g => g.any (fun k => mayShare i (storageAt cells k) (storageAt cells i))
    with ht
  have hblen : b < pg.length := (List.getElem?_eq_some.mp hb).1
  have hbj : pg[b] = j := (List.getElem?_eq_some.mp hb).2
  have hsplit : pg = pg.take b ++ j :: pg.drop (b + 1) := by
    conv_lhs => rw [← List.take_append_drop b pg]
    rw [List.drop_eq_getElem_cons hblen, hbj]
  have hfold : groupArgsShareMemory mayShare cells pg =
      (pg.drop (b + 1)).foldl (fun gs x => insertGrouped t x gs)
        (insertGrouped t j ((pg.take b).foldl (fun gs x => insertGrouped t x gs) [])) := by
    rw [groupArgsShareMemory_eq]
    conv_lhs => rw [hsplit]
    rw [List.foldl_append, List.foldl_cons]
  -- the earlier argument is already in some share-group when `j` is inserted
  have hitake : i ∈ pg.take b := by
    have hta : (pg.take b)[a]? = some i := by
      rw [List.getElem?_take, if_pos hab]
      exact ha
    exact List.getElem?_mem hta
  set acc := (pg.take b).foldl (fun gs x => insertGrouped t x gs) [] with hacc
  have hiacc : i ∈ acc.flatten := by
    have hperm := foldl_insertGrouped_flatten_perm t (pg.take b) ([] : List (List Nat))
    rw [hperm.mem_iff]
    simpa using hitake
  obtain ⟨g0, hg0, hig0⟩ := List.mem_flatten.mp hiacc
  have htj : t j g0 = true := by
    rw [ht]
    simp only []
    exact List.any_eq_true.mpr ⟨i, hig0, hshare⟩
  have hne : ∀ g ∈ acc, g ≠ [] :=
    foldl_insertGrouped_ne_nil t (pg.take b) [] (by simp)
  obtain ⟨g2, hg2, hj2⟩ := insertGrouped_tail_of_test t j acc hne ⟨g0, hg0, htj⟩
  obtain ⟨G, hG, hjG⟩ :=
    foldl_insertGrouped_tail_mono t j (pg.drop (b + 1)) _ ⟨g2, hg2, hj2⟩
  have hndflat : (groupArgsShareMemory mayShare cells pg).flatten.Nodup := by
    rw [groupArgsShareMemory_eq]
    have hperm := foldl_insertGrouped_flatten_perm t pg ([] : List (List Nat))
    rw [hperm.nodup_iff]
    simpa using hnd
  unfold processPotentialGroup
  refine copyGroupTails_copies copyFn _ cells G j hndflat ?_ hjG hlen
  rw [hfold] at *
  exact hG

theorem aliasingCopyPhase_preserve (mayShare : Nat → Option Val → Option Val → Bool)
    (copyFn : Val → Val) :
    ∀ (pgs : List (List Nat)) (cells : List Cell) (k : Nat), k ∉ pgs.flatten →
      storageAt (aliasingCopyPhase mayShare copyFn pgs cells) k = storageAt cells k := by
  intro pgs
  induction pgs with
  | nil => intro cells k _; rfl
  | cons pg pgs ih =>
    intro cells k hk
    simp only [List.flatten_cons, List.mem_append] at hk
    push_neg at hk
    simp only [aliasingCopyPhase, List.foldl_cons]
    rw [show (List.foldl (fun cs pg => processPotentialGroup mayShare copyFn cs pg)
        (processPotentialGroup mayShare copyFn cells pg) pgs) =
      aliasingCopyPhase mayShare copyFn pgs
        (processPotentialGroup mayShare copyFn cells pg) from rfl]
    rw [ih _ k hk.2]
    exact processPotentialGroup_preserve mayShare copyFn cells pg k hk.1

theorem aliasingCopyPhase_copies (mayShare : Nat → Option Val → Option Val → Bool)
    (copyFn : Val → Val) :
    ∀ (pgs : List (List Nat)) (cells : List Cell) (pg : List Nat) (i j a b : Nat),
      pgs.flatten.Nodup → pg ∈ pgs →
      pg[a]? = some i → pg[b]? = some j → a < b → j < cells.length →
      mayShare j (storageAt cells i) (storageAt cells j) = true →
      storageAt (aliasingCopyPhase mayShare copyFn pgs cells) j =
        (storageAt cells j).map copyFn := by
  intro pgs
  induction pgs with
  | nil => intro cells pg i j a b _ hpg _ _ _ _ _; simp at hpg
  | cons g pgs ih =>
    intro cells pg i j a b hnd hpg ha hb hab hlen hshare
    simp only [List.flatten_cons] at hnd
    have hparts := List.nodup_append.mp hnd
    have hipg : i ∈ pg := List.getElem?_mem ha
    have hjpg : j ∈ pg := List.getElem?_mem hb
    simp only [aliasingCopyPhase, List.foldl_cons]
    rw [show (List.foldl (fun cs pg => processPotentialGroup mayShare copyFn cs pg)
        (processPotentialGroup mayShare copyFn cells g) pgs) =
      aliasingCopyPhase mayShare copyFn pgs
        (processPotentialGroup mayShare copyFn cells g) from rfl]
    rcases List.mem_cons.mp hpg with rfl | hmem
    · have hjflat : j ∉ pgs.flatten := fun hx => hparts.2.2 hjpg hx
      rw [aliasingCopyPhase_preserve mayShare copyFn pgs _ j hjflat]
      exact processPotentialGroup_copies mayShare copyFn cells pg i j a b
        (hparts.1) ha hb hab hlen hshare
    · have hjflat : j ∈ pgs.flatten := List.mem_flatten.mpr ⟨pg, hmem, hjpg⟩
      have hiflat : i ∈ pgs.flatten := List.mem_flatten.mpr ⟨pg, hmem, hipg⟩
      have hig : i ∉ g := fun hx => hparts.2.2 hx hiflat
      have hjg : j ∉ g := fun hx => hparts.2.2 hx hjflat
      have hpi := processPotentialGroup_preserve mayShare copyFn cells g i hig
      have hpj := processPotentialGroup_preserve mayShare copyFn cells g j hjg
      rw [← hpj]
      refine ih _ pg i j a b hparts.2.1 hmem ha hb hab ?_ ?_
      · rw [processPotentialGroup_length]
        exact hlen
      · rw [hpi, hpj]
        exact hshare

theorem enumFrom_pairwise_fst {α : Type} (l : List α) :
    ∀ n, List.Pairwise (fun p q => p.1 < q.1) (List.enumFrom n l) := by
  induction l with
  | nil => intro n; simp
  | cons a l ih =>
    intro n
    simp only [List.enumFrom]
    refine List.pairwise_cons.mpr ⟨?_, ih (n + 1)⟩
    intro q hq
    have := (List.mem_enumFrom hq).1
    omega

theorem sublist_flatten_mono {α : Type} {L1 L2 : List (List α)} (h : L1.Sublist L2) :
    L1.flatten.Sublist L2.flatten := by
  induction h with
  | slnil => exact List.Sublist.refl _
  | cons l _ ih =>
    simp only [List.flatten_cons]
    exact ih.trans (List.sublist_append_right _ _)
  | cons₂ l _ ih =>
    simp only [List.flatten_cons]
    exact (List.Sublist.refl l).append ih

theorem filterMap_if_eq {α β : Type} (p : α → Prop) [DecidablePred p] (f : α → β)
    (l : List α) :
    l.filterMap (fun g => if p g then some (f g) else none) =
      (l.filter (fun g => decide (p g))).map f := by
  induction l with
  | nil => rfl
  | cons a l ih =>
    by_cases h : p a <;> simp [List.filterMap_cons, List.filter_cons, h, ih]

theorem potential_groups_eq (is_super : Nat → Nat → Bool) (inputs : List SymbolicInput) :
    potential_aliased_input_groups is_super inputs =
      ((((List.enumFrom 0 inputs).filter (fun p => eligibleForAliasGroup p.2)).foldl
          (fun gs p => insertGrouped (fun x g => g.any (fun y =>
            is_super x.2.typeId y.2.typeId || is_super y.2.typeId x.2.typeId)) p gs)
          []).filter (fun g => g.length > 1)).map (List.map (·.1)) := by
  unfold potential_aliased_input_groups insertIntoGroups
  rw [filterMap_if_eq]

/-- The indices collected over all potential aliased input groups are
pairwise distinct (each eligible input lands in exactly one group, once). -/
theorem potential_groups_flatten_nodup (is_super : Nat → Nat → Bool)
    (inputs : List SymbolicInput) :
    (potential_aliased_input_groups is_super inputs).flatten.Nodup := by
  rw [potential_groups_eq]
  set tTy : (Nat × SymbolicInput) → List (Nat × SymbolicInput) → Bool :=
    fun x g => g.any (fun y =>
      is_super x.2.typeId y.2.typeId || is_super y.2.typeId x.2.typeId) with htTy
  set pairs := (List.enumFrom 0 inputs).filter (fun p => eligibleForAliasGroup p.2)
    with hpairs
  set groups0 := pairs.foldl (fun gs p => insertGrouped tTy p gs) [] with hgroups0
  rw [← List.map_flatten]
  have hsub : ((groups0.filter (fun g => g.length > 1)).flatten).Sublist groups0.flatten :=
    sublist_flatten_mono (List.filter_sublist _)
  have hsubm := hsub.map (·.1)
  refine List.Nodup.sublist hsubm ?_
  have hperm := (foldl_insertGrouped_flatten_perm tTy pairs
    ([] : List (List (Nat × SymbolicInput)))).map (·.1)
  rw [hperm.nodup_iff]
  simp only [List.flatten_nil, List.append_nil]
  have hpw : List.Pairwise (fun p q => p.1 < q.1) pairs :=
    List.Pairwise.sublist (List.filter_sublist _) (enumFrom_pairwise_fst inputs 0)
  have hpwm : List.Pairwise (· < ·) (pairs.map (·.1)) := by
    rw [List.pairwise_map]
    exact hpw
  exact hpwm.imp (fun hlt => Nat.ne_of_lt hlt)

/-- Every index in a potential aliased input group refers to an eligible
input: a non-shared, borrow-permitted `In` instance whose type has the
`may_share_memory` capability. -/
theorem potential_groups_eligible (is_super : Nat → Nat → Bool)
    (inputs : List SymbolicInput) (pg : List Nat) (k : Nat)
    (hpg : pg ∈ potential_aliased_input_groups is_super inputs) (hk : k ∈ pg) :
    ∃ inp, inputs[k]? = some inp ∧ eligibleForAliasGroup inp = true := by
  rw [potential_groups_eq] at hpg
  obtain ⟨g0, hg0, rfl⟩ := List.mem_map.mp hpg
  obtain ⟨pr, hpr, hfst⟩ := List.mem_map.mp hk
  have hg0mem : g0 ∈ ((List.enumFrom 0 inputs).filter
      (fun p => eligibleForAliasGroup p.2)).foldl
      (fun gs p => insertGrouped (fun x g => g.any (fun y =>
        is_super x.2.typeId y.2.typeId || is_super y.2.typeId x.2.typeId)) p gs) [] :=
    (List.filter_sublist _).subset hg0
  have hprflat : pr ∈ (((List.enumFrom 0 inputs).filter
      (fun p => eligibleForAliasGroup p.2)).foldl
      (fun gs p => insertGrouped (fun x g => g.any (fun y =>
        is_super x.2.typeId y.2.typeId || is_super y.2.typeId x.2.typeId)) p gs)
      []).flatten :=
    List.mem_flatten.mpr ⟨g0, hg0mem, hpr⟩
  have hperm := foldl_insertGrouped_flatten_perm
    (fun (x : Nat × SymbolicInput) g => g.any (fun y =>
      is_super x.2.typeId y.2.typeId || is_super y.2.typeId x.2.typeId))
    ((List.enumFrom 0 inputs).filter (fun p => eligibleForAliasGroup p.2))
    ([] : List (List (Nat × SymbolicInput)))
  rw [hperm.mem_iff] at hprflat
  simp only [List.flatten_nil, List.append_nil] at hprflat
  have helig : eligibleForAliasGroup pr.2 = true := by
    have := List.of_mem_filter hprflat
    simpa using this
  have henum : pr ∈ List.enumFrom 0 inputs := List.mem_of_mem_filter hprflat
  obtain ⟨p1, p2⟩ := pr
  have hfst2 : p1 = k := hfst
  subst hfst2
  have hinfo := List.mem_enumFrom henum
  refine ⟨p2, ?_, helig⟩
  have hlt : p1 < inputs.length := by
    have := hinfo.2.1
    omega
  rw [List.getElem?_eq_getElem hlt]
  have h22 := hinfo.2.2
  simp only [Nat.sub_zero] at h22
  rw [h22]

/-- **C2.** For a call not in trust-input mode: whenever two argument
positions `i` (earlier) and `j` (later) of the same potential aliased input
group hold values that the `may_share_memory` test relates, the
defensive-copy block replaces `j`'s stored value with a copy before the
linked executable runs (the block's result feeds the validation step and
the VM directly in `Function_call_core`); and every index grouped this way
belongs to an eligible input: a non-shared, borrow-permitted `In` instance
whose type carries `may_share_memory`, grouped with type-comparable
inputs. -/
theorem aliased_arguments_copied (is_super : Nat → Nat → Bool)
    (mayShare : Nat → Option Val → Option Val → Bool) (copyFn : Val → Val)
    (inputs : List SymbolicInput) (cells : List Cell) (pg : List Nat)
    (i j a b : Nat)
    (hpg : pg ∈ potential_aliased_input_groups is_super inputs)
    (ha : pg[a]? = some i) (hb : pg[b]? = some j) (hab : a < b)
    (hlen : j < cells.length)
    (hshare : mayShare j (storageAt cells i) (storageAt cells j) = true) :
    storageAt (aliasingCopyPhase mayShare copyFn
        (potential_aliased_input_groups is_super inputs) cells) j =
      (storageAt cells j).map copyFn ∧
    (∀ k ∈ pg, ∃ inp, inputs[k]? = some inp ∧ eligibleForAliasGroup inp = true) := by
  constructor
  · exact aliasingCopyPhase_copies mayShare copyFn
      (potential_aliased_input_groups is_super inputs) cells pg i j a b
      (potential_groups_flatten_nodup is_super inputs) hpg ha hb hab hlen hshare
  · intro k hk
    exact potential_groups_eligible is_super inputs pg k hpg hk

theorem aliased_arguments_copied_witness :
    [0, 1] ∈ potential_aliased_input_groups (fun a b => a == b) [c2Input, c2InputB] ∧
    ([0, 1] : List Nat)[0]? = some 0 ∧ ([0, 1] : List Nat)[1]? = some 1 ∧
    (fun (_ : Nat) (x y : Option Val) => x == y) 1
      (storageAt [c2Cell, c2Cell] 0) (storageAt [c2Cell, c2Cell] 1) = true ∧
    (storageAt (aliasingCopyPhase (fun _ x y => x == y) (fun v => v + 100)
        (potential_aliased_input_groups (fun a b => a == b) [c2Input, c2InputB])
        [c2Cell, c2Cell]) 1 =
      (storageAt [c2Cell, c2Cell] 1).map (fun v => v + 100) ∧
     (∀ k ∈ [0, 1], ∃ inp, ([c2Input, c2InputB] : List SymbolicInput)[k]? = some inp ∧
        eligibleForAliasGroup inp = true)) :=
  ⟨by decide, by decide, by decide, by decide,
    aliased_arguments_copied (fun a b => a == b) (fun _ x y => x == y)
      (fun v => v + 100) [c2Input, c2InputB] [c2Cell, c2Cell] [0, 1] 0 1 0 1
      (by decide) (by decide) (by decide) (by decide) (by decide) (by decide)⟩

theorem add_supervisor_to_fgraph_spec_witness :
    (∃ n ∈ supWitnessGraph.nodes, n.op.destroy_map ≠ []) ∧
    [supWitnessSpec].length = supWitnessGraph.fInputs.length ∧
    ((∃ node ∈ supWitnessGraph.nodes, node.op.destroy_map ≠ [] ∧
       add_supervisor_to_fgraph supWitnessGraph [supWitnessSpec] false false
         (fun _ => false) = .error (.inplaceNotAllowed node)) ∧
     (∃ r, add_supervisor_to_fgraph supWitnessGraph [supWitnessSpec] true false
         (fun _ => false) = .ok r ∧ r.attachedDestroyHandler = true)) :=
  ⟨⟨supWitnessNode, by decide, by decide⟩, by decide,
    add_supervisor_to_fgraph_spec supWitnessGraph [supWitnessSpec] (fun _ => false)
      ⟨supWitnessNode, by decide, by decide⟩ (by decide)⟩

theorem expandF_fixed_of_card_le (f : Nat → Finset Nat) {s U : Finset Nat}
    (hU : ∀ a ∈ U, f a ⊆ U) (hs : s ⊆ U) {n : Nat} (h : U.card ≤ n) :
    expandF f ((expandF f)^[n] s) = (expandF f)^[n] s := by
  have hsat := expandF_iterate_saturated f hU hs
  rw [iterate_expandF_eq_of_fix_le f s hsat h, hsat]

theorem closed_of_fix {f : Nat → Finset Nat} {A : Finset Nat}
    (h : expandF f A = A) {a : Nat} (ha : a ∈ A) : f a ⊆ A := by
  intro x hx
  rw [← h]
  unfold expandF
  exact Finset.mem_union_right _ (Finset.mem_biUnion.mpr ⟨a, ha, hx⟩)

theorem ownerOf_mem {g : FGraph} {v : Nat} {n : Apply} {i : Nat}
    (h : ownerOf g v = some (n, i)) : n ∈ g.nodes ∧ v ∈ n.outputs := by
  rcases hf : g.nodes.find? (fun m => m.outputs.contains v) with _ | m
  · simp only [ownerOf, hf] at h
    exact Option.noConfusion h
  · simp only [ownerOf, hf] at h
    rcases hidx : m.outputs.indexOf? v with _ | j
    · simp only [hidx] at h
      exact Option.noConfusion h
    · simp only [hidx, Option.some.injEq, Prod.mk.injEq] at h
      obtain ⟨rfl, rfl⟩ := h
      refine ⟨List.mem_of_find?_eq_some hf, ?_⟩
      have := List.find?_some hf
      simpa using this

theorem mem_mentioned_of_input {g : FGraph} {n : Apply} {u : Nat}
    (hn : n ∈ g.nodes) (hu : u ∈ n.inputs) : u ∈ mentionedVars g := by
  unfold mentionedVars
  simp only [List.mem_toFinset, List.mem_append, List.mem_flatMap]
  exact Or.inr ⟨n, hn, Or.inl hu⟩

theorem mem_mentioned_of_output {g : FGraph} {n : Apply} {u : Nat}
    (hn : n ∈ g.nodes) (hu : u ∈ n.outputs) : u ∈ mentionedVars g := by
  unfold mentionedVars
  simp only [List.mem_toFinset, List.mem_append, List.mem_flatMap]
  exact Or.inr ⟨n, hn, Or.inr hu⟩

theorem mem_mentioned_of_gr_output {g : FGraph} {u : Nat}
    (hu : u ∈ g.outputs) : u ∈ mentionedVars g := by
  unfold mentionedVars
  simp only [List.mem_toFinset, List.mem_append]
  exact Or.inl (Or.inr hu)

theorem ownerOf_none_of_unmentioned {g : FGraph} {v : Nat}
    (h : v ∉ mentionedVars g) : ownerOf g v = none := by
  rcases hf : g.nodes.find? (fun m => m.outputs.contains v) with _ | m
  · simp only [ownerOf, hf]
  · exfalso
    apply h
    have hp := List.find?_some hf
    have hv : v ∈ m.outputs := by simpa using hp
    exact mem_mentioned_of_output (List.mem_of_find?_eq_some hf) hv

theorem predList_subset_mentioned (g : FGraph) (v u : Nat)
    (hu : u ∈ predList g v) : u ∈ mentionedVars g := by
  unfold predList at hu
  rcases hown : ownerOf g v with _ | ⟨n, i⟩
  · rw [hown] at hu
    exact absurd hu (by simp)
  · rw [hown] at hu
    exact mem_mentioned_of_input (ownerOf_mem hown).1 hu

theorem viewTargets_subset_mentioned (g : FGraph) (u : Nat) :
    viewTargets g u ⊆ mentionedVars g := by
  intro x hx
  unfold viewTargets at hx
  simp only [List.mem_toFinset, List.mem_flatMap] at hx
  obtain ⟨n, hn, hxn⟩ := hx
  unfold nodeViewTargets at hxn
  simp only [List.mem_flatMap] at hxn
  obtain ⟨p, _, hp⟩ := hxn
  split at hp
  · simp only [List.mem_flatMap] at hp
    obtain ⟨e, _, he⟩ := hp
    split at he
    · have : x ∈ n.outputs := by
        rcases hg : n.outputs[e.1]? with _ | y
        · rw [hg] at he
          exact absurd he (by simp)
        · rw [hg] at he
          have hxy : x = y := by simpa using he
          subst hxy
          exact List.getElem?_mem hg
      exact mem_mentioned_of_output hn this
    · exact absurd he (by simp)
  · exact absurd hp (by simp)

theorem view_tree_subset (g : FGraph) (r : Nat) :
    view_tree_set g r ⊆ mentionedVars g ∪ {r} := by
  unfold view_tree_set
  refine iterate_expandF_subset_of_closed _ ?_ ?_ _
  · intro a _
    exact (viewTargets_subset_mentioned g a).trans Finset.subset_union_left
  · intro a ha
    simp only [Finset.mem_singleton] at ha
    subst ha
    exact Finset.mem_union_right _ (Finset.mem_singleton_self a)

theorem ancestors_subset_mentioned (g : FGraph) {start : List Nat}
    (hstart : ∀ a ∈ start, a ∈ mentionedVars g) :
    ancestorsSet g start ⊆ mentionedVars g := by
  unfold ancestorsSet
  refine iterate_expandF_subset_of_closed _ ?_ ?_ _
  · intro a _ x hx
    simp only [List.mem_toFinset] at hx
    exact predList_subset_mentioned g a x hx
  · intro a ha
    simp only [List.mem_toFinset] at ha
    exact hstart a ha

theorem ancestorsSet_fix (g : FGraph) {start : List Nat}
    (hstart : ∀ a ∈ start, a ∈ mentionedVars g) :
    expandF (fun u => (predList g u).toFinset) (ancestorsSet g start) =
      ancestorsSet g start := by
  unfold ancestorsSet
  refine @expandF_fixed_of_card_le _ _ (mentionedVars g) ?_ ?_ _ ?_
  · intro a _ x hx
    simp only [List.mem_toFinset] at hx
    exact predList_subset_mentioned g a x hx
  · intro a ha
    simp only [List.mem_toFinset] at ha
    exact hstart a ha
  · unfold graphFuel
    omega

theorem le_foldr_max (l : List Nat) (v : Nat) (hv : v ∈ l) :
    v ≤ l.foldr max 0 := by
  induction l with
  | nil => exact absurd hv (by simp)
  | cons a l ih =>
    simp only [List.mem_cons] at hv
    simp only [List.foldr_cons]
    rcases hv with rfl | hv
    · exact Nat.le_max_left _ _
    · exact (ih hv).trans (Nat.le_max_right _ _)

theorem mem_mentioned_lt_varBound {g : FGraph} {v : Nat}
    (h : v ∈ mentionedVars g) : v < varBound g := by
  unfold mentionedVars at h
  simp only [List.mem_toFinset] at h
  have := le_foldr_max _ v h
  unfold varBound
  omega

theorem alias_root_le (g : FGraph) :
    ∀ (f : Nat) (v : Nat), alias_root g f v ≠ .noFuel →
      ∀ f', f ≤ f' → alias_root g f' v = alias_root g f v := by
  intro f
  induction f with
  | zero => intro v hv; exact absurd rfl hv
  | succ f ih =>
    intro v hv f' hf'
    obtain ⟨f'', rfl⟩ : ∃ k, f' = k + 1 := ⟨f' - 1, by omega⟩
    rcases hown : ownerOf g v with _ | ⟨node, outpos⟩
    · simp only [alias_root, hown]
    · rcases hviews : vViewsAt node.op outpos with _ | ⟨i, _ | ⟨j, rest⟩⟩
      · simp only [alias_root, hown, hviews]
      · rcases hget : node.inputs[i]? with _ | u
        · simp only [alias_root, hown, hviews, hget]
        · simp only [alias_root, hown, hviews, hget]
          have hv' : alias_root g f u ≠ .noFuel := by
            intro hc
            apply hv
            simp only [alias_root, hown, hviews, hget, hc]
          exact ih u hv' f'' (by omega)
      · simp only [alias_root, hown, hviews]

theorem alias_root_ok_cases (g : FGraph) :
    ∀ (f : Nat) (v r : Nat), alias_root g f v = .ok r →
      r = v ∨ r ∈ mentionedVars g := by
  intro f
  induction f with
  | zero => intro v r h; exact absurd h (by simp [alias_root])
  | succ f ih =>
    intro v r h
    rcases hown : ownerOf g v with _ | ⟨node, outpos⟩
    · simp only [alias_root, hown] at h
      left
      simpa using h.symm
    · rcases hviews : vViewsAt node.op outpos with _ | ⟨i, _ | ⟨j, rest⟩⟩
      · simp only [alias_root, hown, hviews] at h
        left
        simpa using h.symm
      · rcases hget : node.inputs[i]? with _ | u
        · simp only [alias_root, hown, hviews, hget] at h
          exact AliasRes.noConfusion h
        · simp only [alias_root, hown, hviews, hget] at h
          rcases ih u r h with rfl | hm
          · right
            exact mem_mentioned_of_input (ownerOf_mem hown).1 (List.getElem?_mem hget)
          · right
            exact hm
      · simp only [alias_root, hown, hviews] at h
        exact AliasRes.noConfusion h

theorem getD_eq_getElem {l : List Nat} {k : Nat} (hk : k < l.length) :
    l.getD k 0 = l[k] := by
  rw [List.getD_eq_getElem?_getD, List.getElem?_eq_getElem hk]
  rfl

theorem nodeViewTargets_dcNode (u w x : Nat) :
    nodeViewTargets (dcNode u w) x = [] := by
  simp [nodeViewTargets, dcNode, deepCopyOpMaps]

theorem flatMap_nodeViewTargets_map_dc (g0 : FGraph) (ps : List Patch) (u : Nat) :
    (ps.map (toDcNode g0)).flatMap (fun n => nodeViewTargets n u) = [] := by
  induction ps with
  | nil => rfl
  | cons p ps ih => simp [toDcNode, nodeViewTargets_dcNode, ih]

theorem viewTargets_ext {g0 : FGraph} {fresh0 : Nat} {st : IDCState}
    (hext : DCExt g0 fresh0 st) (u : Nat) :
    viewTargets st.g u = viewTargets g0 u := by
  unfold viewTargets
  rw [hext.nodes_eq, List.flatMap_append, flatMap_nodeViewTargets_map_dc,
    List.append_nil]

theorem mentioned_sub_ext {g0 : FGraph} {fresh0 : Nat} {st : IDCState}
    (hext : DCExt g0 fresh0 st) :
    mentionedVars g0 ⊆ mentionedVars st.g := by
  intro v hv
  unfold mentionedVars at hv ⊢
  simp only [List.mem_toFinset, List.mem_append, List.mem_flatMap] at hv ⊢
  rcases hv with (hv | hv) | hv
  · left
    left
    rw [hext.fin]
    exact hv
  · obtain ⟨k, hk, hkv⟩ := List.mem_iff_getElem.mp hv
    have hout := hext.outs_eq k hk
    rcases hfp : st.patches.find? (fun p => p.outIndex == k) with _ | p
    · simp only [hfp] at hout
      left
      right
      have hk' : k < st.g.outputs.length := by rw [hext.nlen]; exact hk
      rw [getD_eq_getElem hk', getD_eq_getElem hk, hkv] at hout
      rw [← hout]
      exact List.getElem_mem hk'
    · simp only [hfp] at hout
      have hpmem : p ∈ st.patches := List.mem_of_find?_eq_some hfp
      have hpk : p.outIndex = k := by
        have := List.find?_some hfp
        simpa using this
      right
      refine ⟨toDcNode g0 p, ?_, ?_⟩
      · rw [hext.nodes_eq]
        exact List.mem_append_right _ (List.mem_map_of_mem _ hpmem)
      · left
        simp only [toDcNode, dcNode, List.mem_singleton]
        rw [hpk, getD_eq_getElem hk, hkv]
  · obtain ⟨n, hn, hvn⟩ := hv
    right
    refine ⟨n, ?_, hvn⟩
    rw [hext.nodes_eq]
    exact List.mem_append_left _ hn

theorem graphFuel_mono_ext {g0 : FGraph} {fresh0 : Nat} {st : IDCState}
    (hext : DCExt g0 fresh0 st) : graphFuel g0 ≤ graphFuel st.g := by
  unfold graphFuel
  have := Finset.card_le_card (mentioned_sub_ext hext)
  omega

theorem ownerOf_ext_old {g0 : FGraph} {fresh0 : Nat} {st : IDCState}
    (hext : DCExt g0 fresh0 st) {v : Nat} (hv : v < fresh0) :
    ownerOf st.g v = ownerOf g0 v := by
  have hdc : (st.patches.map (toDcNode g0)).find?
      (fun n => n.outputs.contains v) = none := by
    rw [List.find?_eq_none]
    intro n hn
    simp only [List.mem_map] at hn
    obtain ⟨p, hp, rfl⟩ := hn
    have := hext.patch_lb p hp
    simp only [toDcNode, dcNode, List.contains_cons, List.contains_nil,
      Bool.or_false, beq_iff_eq]
    omega
  unfold ownerOf
  rw [hext.nodes_eq, List.find?_append, hdc, Option.or_none]

theorem find?_map_dc {g0 : FGraph} {ps : List Patch} {p : Patch}
    (hnd : ps.Pairwise (fun a b => a.newVar ≠ b.newVar)) (hp : p ∈ ps) :
    (ps.map (toDcNode g0)).find? (fun n => n.outputs.contains p.newVar) =
      some (toDcNode g0 p) := by
  induction ps with
  | nil => exact absurd hp (by simp)
  | cons q ps ih =>
    simp only [List.mem_cons] at hp
    by_cases hqp : q.newVar = p.newVar
    · have hpq : p = q := by
        rcases hp with rfl | hp
        · rfl
        · exact absurd hqp ((List.pairwise_cons.mp hnd).1 p hp)
      subst hpq
      rw [List.map_cons, List.find?_cons_of_pos]
      simp [toDcNode, dcNode]
    · have hp' : p ∈ ps := by
        rcases hp with rfl | hp
        · exact absurd rfl hqp
        · exact hp
      rw [List.map_cons, List.find?_cons_of_neg]
      · exact ih (List.pairwise_cons.mp hnd).2 hp'
      · simp only [toDcNode, dcNode, List.contains_cons, List.contains_nil,
          Bool.or_false, beq_iff_eq, Bool.not_eq_true, decide_eq_false_iff_not]
        exact fun h => hqp h.symm

theorem ownerOf_patch {g0 : FGraph} {fresh0 : Nat} {st : IDCState}
    (hext : DCExt g0 fresh0 st)
    (HB : ∀ v ∈ mentionedVars g0, v < fresh0) {p : Patch} (hp : p ∈ st.patches) :
    ownerOf st.g p.newVar = some (toDcNode g0 p, 0) := by
  have h0 : g0.nodes.find? (fun n => n.outputs.contains p.newVar) = none := by
    rw [List.find?_eq_none]
    intro n hn hcon
    have hv : p.newVar ∈ n.outputs := by simpa using hcon
    have h1 := HB _ (mem_mentioned_of_output hn hv)
    have h2 := hext.patch_lb p hp
    omega
  unfold ownerOf
  rw [hext.nodes_eq, List.find?_append, h0, Option.none_or,
    find?_map_dc hext.var_nodup hp]
  simp [toDcNode, dcNode, List.indexOf?, List.findIdx?]

theorem predList_ext_old {g0 : FGraph} {fresh0 : Nat} {st : IDCState}
    (hext : DCExt g0 fresh0 st) {v : Nat} (hv : v < fresh0) :
    predList st.g v = predList g0 v := by
  unfold predList
  rw [ownerOf_ext_old hext hv]

theorem predList_patch {g0 : FGraph} {fresh0 : Nat} {st : IDCState}
    (hext : DCExt g0 fresh0 st)
    (HB : ∀ v ∈ mentionedVars g0, v < fresh0) {p : Patch} (hp : p ∈ st.patches) :
    predList st.g p.newVar = [g0.outputs.getD p.outIndex 0] := by
  unfold predList
  rw [ownerOf_patch hext HB hp]
  simp [toDcNode, dcNode]

theorem alias_root_ext {g0 : FGraph} {fresh0 : Nat} {st : IDCState}
    (hext : DCExt g0 fresh0 st)
    (HB : ∀ v ∈ mentionedVars g0, v < fresh0) :
    ∀ (f v : Nat), v < fresh0 → alias_root st.g f v = alias_root g0 f v := by
  intro f
  induction f with
  | zero => intro v _; rfl
  | succ f ih =>
    intro v hv
    have hoe := ownerOf_ext_old hext hv
    rcases hown : ownerOf g0 v with _ | ⟨node, outpos⟩
    · simp only [alias_root, hoe, hown]
    · rcases hviews : vViewsAt node.op outpos with _ | ⟨i, _ | ⟨j, rest⟩⟩
      · simp only [alias_root, hoe, hown, hviews]
      · rcases hget : node.inputs[i]? with _ | u
        · simp only [alias_root, hoe, hown, hviews, hget]
        · simp only [alias_root, hoe, hown, hviews, hget]
          exact ih u (HB u (mem_mentioned_of_input (ownerOf_mem hown).1
            (List.getElem?_mem hget)))
      · simp only [alias_root, hoe, hown, hviews]

theorem alias_root_patch {g0 : FGraph} {fresh0 : Nat} {st : IDCState}
    (hext : DCExt g0 fresh0 st)
    (HB : ∀ v ∈ mentionedVars g0, v < fresh0) {p : Patch} (hp : p ∈ st.patches)
    {f : Nat} (hf : 1 ≤ f) :
    alias_root st.g f p.newVar = .ok p.newVar := by
  obtain ⟨f', rfl⟩ : ∃ k, f = k + 1 := ⟨f - 1, by omega⟩
  have hown := ownerOf_patch hext HB hp
  have hviews : vViewsAt (toDcNode g0 p).op 0 = [] := by
    simp [toDcNode, dcNode, deepCopyOpMaps, vViewsAt, dictGet]
  simp only [alias_root, hown, hviews]

theorem view_tree_set_ext {g0 : FGraph} {fresh0 : Nat} {st : IDCState}
    (hext : DCExt g0 fresh0 st) (r : Nat) :
    view_tree_set st.g r = view_tree_set g0 r := by
  unfold view_tree_set
  have hf : viewTargets st.g = viewTargets g0 := funext (viewTargets_ext hext)
  rw [hf]
  have hU : ∀ a ∈ mentionedVars g0 ∪ {r}, viewTargets g0 a ⊆ mentionedVars g0 ∪ {r} :=
    fun a _ => (viewTargets_subset_mentioned g0 a).trans Finset.subset_union_left
  have hs : ({r} : Finset Nat) ⊆ mentionedVars g0 ∪ {r} := Finset.subset_union_right
  have hcard : (mentionedVars g0 ∪ {r}).card ≤ graphFuel g0 := by
    have := Finset.card_union_le (mentionedVars g0) ({r} : Finset Nat)
    unfold graphFuel
    simp only [Finset.card_singleton] at this
    omega
  exact @iterate_expandF_fuel_irrel _ _ (mentionedVars g0 ∪ {r}) hU hs _ _
    (hcard.trans (graphFuel_mono_ext hext)) hcard

theorem viewTargets_consumed {g : FGraph} {u x : Nat} (hx : x ∈ viewTargets g u) :
    ∃ n ∈ g.nodes, u ∈ n.inputs := by
  unfold viewTargets at hx
  simp only [List.mem_toFinset, List.mem_flatMap] at hx
  obtain ⟨n, hn, hxn⟩ := hx
  unfold nodeViewTargets at hxn
  simp only [List.mem_flatMap] at hxn
  obtain ⟨p, _, hp⟩ := hxn
  split at hp
  · rename_i hin
    exact ⟨n, hn, List.getElem?_mem hin⟩
  · exact absurd hp (by simp)

theorem view_tree_fresh (g0 : FGraph) {fresh0 : Nat}
    (HB : ∀ v ∈ mentionedVars g0, v < fresh0) {w : Nat} (hw : fresh0 ≤ w) :
    view_tree_set g0 w = {w} := by
  have hvt : viewTargets g0 w = ∅ := by
    rw [Finset.eq_empty_iff_forall_not_mem]
    intro x hx
    obtain ⟨n, hn, hwn⟩ := viewTargets_consumed hx
    have := HB w (mem_mentioned_of_input hn hwn)
    omega
  have hfix : expandF (viewTargets g0) {w} = {w} := by
    unfold expandF
    rw [Finset.singleton_biUnion, hvt, Finset.union_empty]
  unfold view_tree_set
  rw [iterate_expandF_of_fix _ hfix]

theorem filter_range_shrink (p : Nat → Bool) {B B' : Nat} (h : B ≤ B')
    (hb : ∀ v, p v = true → v < B) :
    (List.range B').filter p = (List.range B).filter p := by
  obtain ⟨k, rfl⟩ := Nat.exists_eq_add_of_le h
  rw [List.range_add, List.filter_append]
  have hnil : (List.map (fun x => B + x) (List.range k)).filter p = [] := by
    rw [List.filter_eq_nil_iff]
    intro a ha
    simp only [List.mem_map] at ha
    obtain ⟨x, _, rfl⟩ := ha
    intro hpa
    have := hb _ hpa
    omega
  rw [hnil, List.append_nil]

theorem filter_range_eq_of_bounds (p : Nat → Bool) {B1 B2 : Nat}
    (hb1 : ∀ v, p v = true → v < B1) (hb2 : ∀ v, p v = true → v < B2) :
    (List.range B1).filter p = (List.range B2).filter p := by
  rcases Nat.le_total B1 B2 with h | h
  · exact (filter_range_shrink p h hb1).symm
  · exact filter_range_shrink p h hb2

theorem start_subset_ancestors (g : FGraph) (start : List Nat) :
    start.toFinset ⊆ ancestorsSet g start := by
  unfold ancestorsSet
  exact subset_iterate_expandF _ _ _

/-- Every ancestor of the original outputs is still an ancestor of the
patched outputs: a patched output's deep-copy node points back at the
original output variable. -/
theorem ancestors_sub_ext {g0 : FGraph} {fresh0 : Nat} {st : IDCState}
    (hext : DCExt g0 fresh0 st)
    (HB : ∀ v ∈ mentionedVars g0, v < fresh0) :
    ancestorsSet g0 g0.outputs ⊆ ancestorsSet st.g st.g.outputs := by
  have hfixG := ancestorsSet_fix st.g
    (fun a ha => mem_mentioned_of_gr_output ha)
  have hT : ∀ a ∈ ancestorsSet st.g st.g.outputs,
      ((predList g0 a).toFinset : Finset Nat) ⊆ ancestorsSet st.g st.g.outputs := by
    intro a ha
    by_cases hva : a < fresh0
    · rw [← predList_ext_old hext hva]
      exact closed_of_fix hfixG ha
    · have hnone : ownerOf g0 a = none := by
        apply ownerOf_none_of_unmentioned
        intro hmem
        exact hva (HB a hmem)
      unfold predList
      rw [hnone]
      simp
  have hs : g0.outputs.toFinset ⊆ ancestorsSet st.g st.g.outputs := by
    intro a ha
    simp only [List.mem_toFinset] at ha
    obtain ⟨k, hk, hkv⟩ := List.mem_iff_getElem.mp ha
    have hout := hext.outs_eq k hk
    have hk' : k < st.g.outputs.length := by rw [hext.nlen]; exact hk
    rcases hfp : st.patches.find? (fun p => p.outIndex == k) with _ | p
    · simp only [hfp] at hout
      have hmem : a ∈ st.g.outputs := by
        rw [getD_eq_getElem hk', getD_eq_getElem hk, hkv] at hout
        rw [← hout]
        exact List.getElem_mem hk'
      exact start_subset_ancestors st.g st.g.outputs (List.mem_toFinset.mpr hmem)
    · simp only [hfp] at hout
      have hpmem := List.mem_of_find?_eq_some hfp
      have hpk : p.outIndex = k := by
        have := List.find?_some hfp
        simpa using this
      have hw : p.newVar ∈ st.g.outputs := by
        rw [getD_eq_getElem hk'] at hout
        rw [← hout]
        exact List.getElem_mem hk'
      have hwanc : p.newVar ∈ ancestorsSet st.g st.g.outputs :=
        start_subset_ancestors st.g st.g.outputs (List.mem_toFinset.mpr hw)
      have hclosed := closed_of_fix hfixG hwanc
      rw [predList_patch hext HB hpmem] at hclosed
      apply hclosed
      simp only [List.toFinset_cons, List.toFinset_nil, Finset.mem_insert]
      left
      rw [hpk, getD_eq_getElem hk, hkv]
  have hrepr : ancestorsSet g0 g0.outputs =
      (expandF (fun u => (predList g0 u).toFinset))^[graphFuel g0 + g0.outputs.length]
        g0.outputs.toFinset := rfl
  rw [hrepr]
  exact iterate_expandF_least _ hT hs _

/-- Every ancestor of the patched outputs is an original ancestor or one of
the fresh deep-copy variables. -/
theorem ancestors_sub_ext2 {g0 : FGraph} {fresh0 : Nat} {st : IDCState}
    (hext : DCExt g0 fresh0 st)
    (HB : ∀ v ∈ mentionedVars g0, v < fresh0) :
    ancestorsSet st.g st.g.outputs ⊆
      ancestorsSet g0 g0.outputs ∪ (st.patches.map (fun p => p.newVar)).toFinset := by
  have hfix0 := ancestorsSet_fix g0
    (fun a ha => mem_mentioned_of_gr_output ha)
  have hsub0 := ancestors_subset_mentioned g0
    (fun a (ha : a ∈ g0.outputs) => mem_mentioned_of_gr_output ha)
  have hTc : ∀ a ∈ ancestorsSet g0 g0.outputs ∪
        (st.patches.map (fun p => p.newVar)).toFinset,
      ((predList st.g a).toFinset : Finset Nat) ⊆
        ancestorsSet g0 g0.outputs ∪ (st.patches.map (fun p => p.newVar)).toFinset := by
    intro a ha
    rcases Finset.mem_union.mp ha with ha | ha
    · have hva : a < fresh0 := HB a (hsub0 ha)
      rw [predList_ext_old hext hva]
      exact (closed_of_fix hfix0 ha).trans Finset.subset_union_left
    · simp only [List.mem_toFinset, List.mem_map] at ha
      obtain ⟨p, hp, rfl⟩ := ha
      rw [predList_patch hext HB hp]
      intro x hx
      simp only [List.toFinset_cons, List.toFinset_nil, Finset.mem_insert,
        Finset.not_mem_empty, or_false] at hx
      subst hx
      apply Finset.mem_union_left
      have hidx := hext.patch_idx p hp
      have h0 : g0.outputs.getD p.outIndex 0 ∈ g0.outputs := by
        rw [getD_eq_getElem hidx]
        exact List.getElem_mem hidx
      exact start_subset_ancestors g0 g0.outputs (List.mem_toFinset.mpr h0)
  have hTs : st.g.outputs.toFinset ⊆
      ancestorsSet g0 g0.outputs ∪ (st.patches.map (fun p => p.newVar)).toFinset := by
    intro a ha
    simp only [List.mem_toFinset] at ha
    obtain ⟨k, hk', hkv⟩ := List.mem_iff_getElem.mp ha
    have hk : k < g0.outputs.length := by rw [← hext.nlen]; exact hk'
    have hout := hext.outs_eq k hk
    rcases hfp : st.patches.find? (fun p => p.outIndex == k) with _ | p
    · simp only [hfp] at hout
      apply Finset.mem_union_left
      rw [getD_eq_getElem hk', hkv] at hout
      have ha0 : a ∈ g0.outputs := by
        rw [hout, getD_eq_getElem hk]
        exact List.getElem_mem hk
      exact start_subset_ancestors g0 g0.outputs (List.mem_toFinset.mpr ha0)
    · simp only [hfp] at hout
      apply Finset.mem_union_right
      have hpm := List.mem_of_find?_eq_some hfp
      rw [getD_eq_getElem hk', hkv] at hout
      simp only [List.mem_toFinset, List.mem_map]
      exact ⟨p, hpm, hout.symm⟩
  have hrepr : ancestorsSet st.g st.g.outputs =
      (expandF (fun u => (predList st.g u).toFinset))^[graphFuel st.g + st.g.outputs.length]
        st.g.outputs.toFinset := rfl
  rw [hrepr]
  exact iterate_expandF_least _ hTc hTs _

theorem allGIs_ext {g0 : FGraph} {fresh0 : Nat} {st : IDCState}
    (hext : DCExt g0 fresh0 st)
    (HB : ∀ v ∈ mentionedVars g0, v < fresh0) :
    allGraphInputsList st.g = allGraphInputsList g0 := by
  have hsub0 := ancestors_subset_mentioned g0
    (fun a (ha : a ∈ g0.outputs) => mem_mentioned_of_gr_output ha)
  have hsubG := ancestors_subset_mentioned st.g
    (fun a (ha : a ∈ st.g.outputs) => mem_mentioned_of_gr_output ha)
  have hpt : ∀ v,
      (decide (v ∈ ancestorsSet st.g st.g.outputs) &&
        decide (ownerOf st.g v = none)) =
      (decide (v ∈ ancestorsSet g0 g0.outputs) &&
        decide (ownerOf g0 v = none)) := by
    intro v
    by_cases hv : v < fresh0
    · have how := ownerOf_ext_old hext hv
      have hanc : (v ∈ ancestorsSet st.g st.g.outputs) ↔
          (v ∈ ancestorsSet g0 g0.outputs) := by
        constructor
        · intro h
          rcases Finset.mem_union.mp (ancestors_sub_ext2 hext HB h) with h0 | hPV
          · exact h0
          · exfalso
            simp only [List.mem_toFinset, List.mem_map] at hPV
            obtain ⟨p, hp, rfl⟩ := hPV
            have := hext.patch_lb p hp
            omega
        · intro h
          exact ancestors_sub_ext hext HB h
      rw [how]
      congr 1
      exact decide_eq_decide.mpr hanc
    · have h0anc : v ∉ ancestorsSet g0 g0.outputs := fun h =>
        hv (HB v (hsub0 h))
      rw [Bool.and_comm (decide (v ∈ ancestorsSet g0 g0.outputs)),
        Bool.and_comm (decide (v ∈ ancestorsSet st.g st.g.outputs))]
      have hrhs : decide (v ∈ ancestorsSet g0 g0.outputs) = false := by
        simpa using h0anc
      by_cases hPV : ∃ p ∈ st.patches, p.newVar = v
      · obtain ⟨p, hp, rfl⟩ := hPV
        have hop := ownerOf_patch hext HB hp
        simp [hop, hrhs]
      · have hG : v ∉ ancestorsSet st.g st.g.outputs := by
          intro h
          rcases Finset.mem_union.mp (ancestors_sub_ext2 hext HB h) with h0 | hpv
          · exact h0anc h0
          · simp only [List.mem_toFinset, List.mem_map] at hpv
            obtain ⟨p, hp, hpe⟩ := hpv
            exact hPV ⟨p, hp, hpe⟩
        simp [hG, hrhs]
  unfold allGraphInputsList
  rw [List.filter_congr (fun x _ => hpt x)]
  refine filter_range_eq_of_bounds _ ?_ ?_
  · intro v hv
    simp only [Bool.and_eq_true, decide_eq_true_eq] at hv
    exact mem_mentioned_lt_varBound ((mentioned_sub_ext hext) (hsub0 hv.1))
  · intro v hv
    simp only [Bool.and_eq_true, decide_eq_true_eq] at hv
    exact mem_mentioned_lt_varBound (hsub0 hv.1)

theorem updated_ext {g0 : FGraph} {fresh0 : Nat} {st : IDCState}
    (hext : DCExt g0 fresh0 st) (wIn : List SymbolicInput) :
    updatedFgraphInputs wIn st.g.fInputs = updatedFgraphInputs wIn g0.fInputs := by
  rw [hext.fin]

theorem mem_allGIs {g : FGraph} {v : Nat} (h : v ∈ allGraphInputsList g) :
    v ∈ ancestorsSet g g.outputs ∧ ownerOf g v = none := by
  unfold allGraphInputsList at h
  have := List.of_mem_filter h
  simp only [Bool.and_eq_true, decide_eq_true_eq] at this
  exact this

theorem idcStep_patches {wIn : List SymbolicInput} {wOut : List SymbolicOutput}
    {destroyed : Nat → Bool} {A U : List Nat} {st : IDCState} {i : Nat}
    {st' : IDCState}
    (h : idcStep wIn wOut destroyed A U st i = .ok st') :
    ∃ t, st'.patches = st.patches ++ t := by
  simp only [idcStep] at h
  repeat' split at h
  all_goals (try exact Except.noConfusion h)
  all_goals (injection h with h; subst h)
  all_goals (first
    | exact ⟨[], (List.append_nil _).symm⟩
    | exact ⟨_, rfl⟩)

theorem idc_fold_patches (wIn : List SymbolicInput) (wOut : List SymbolicOutput)
    (destroyed : Nat → Bool) (A U : List Nat) :
    ∀ (l : List Nat) (st st1 : IDCState),
      l.foldlM (fun s i => idcStep wIn wOut destroyed A U s i) st = .ok st1 →
      ∃ t, st1.patches = st.patches ++ t := by
  intro l
  induction l with
  | nil =>
    intro st st1 h
    simp only [List.foldlM_nil] at h
    injection h with h
    subst h
    exact ⟨[], by simp⟩
  | cons a l ih =>
    intro st st1 h
    rw [List.foldlM_cons] at h
    cases hstep : idcStep wIn wOut destroyed A U st a with
    | error e =>
      rw [hstep] at h
      exact Except.noConfusion h
    | ok st' =>
      rw [hstep] at h
      obtain ⟨t1, ht1⟩ := idcStep_patches hstep
      obtain ⟨t2, ht2⟩ := ih st' st1 h
      exact ⟨t1 ++ t2, by rw [ht2, ht1, List.append_assoc]⟩

/-- What a successful loop iteration can look like: either it patched the
current output (with a view or a deep copy), or it left the state alone
because the aliasing analysis found nothing to patch. -/
theorem idcStep_inv {wIn : List SymbolicInput} {wOut : List SymbolicOutput}
    {destroyed : Nat → Bool} {A U : List Nat} {st : IDCState} {i : Nat}
    {st' : IDCState}
    (h : idcStep wIn wOut destroyed A U st i = .ok st') :
    (∃ k, st' = applyPatch st i k) ∨
    (st' = st ∧
      ∃ root, alias_root st.g (graphFuel st.g) (st.g.outputs.getD i 0) = .ok root ∧
        (List.range' (i + 1) (st.g.outputs.length - (i + 1))).find?
          (fun j => decide (st.g.outputs.getD j 0 ∈ view_tree_set st.g root)) = none ∧
        A.find? (fun v => !U.contains v &&
          decide (v ∈ view_tree_set st.g root) && !destroyed v) = none) := by
  simp only [idcStep] at h
  repeat' split at h
  all_goals (try exact Except.noConfusion h)
  all_goals (injection h with h; subst h)
  all_goals (try (left; exact ⟨_, rfl⟩))
  right
  exact ⟨rfl, _, by assumption, by assumption, by assumption⟩

theorem mentioned_applyPatch (st : IDCState) (i : Nat) (k : PatchKind)
    (hi : i < st.g.outputs.length) :
    mentionedVars st.g ⊆ mentionedVars (applyPatch st i k).g := by
  intro v hv
  unfold mentionedVars at hv ⊢
  simp only [List.mem_toFinset, List.mem_append, List.mem_flatMap] at hv ⊢
  cases k <;>
  · simp only [applyPatch]
    rcases hv with (hv | hv) | hv
    · exact Or.inl (Or.inl hv)
    · obtain ⟨j, hj, hjv⟩ := List.mem_iff_getElem.mp hv
      by_cases hij : j = i
      · subst hij
        right
        refine ⟨_, List.mem_append_right _ (List.mem_singleton_self _), Or.inl ?_⟩
        simp only [viewNode, dcNode, List.mem_singleton]
        rw [getD_eq_getElem hj, hjv]
      · left
        right
        rw [List.mem_iff_getElem]
        refine ⟨j, ?_, ?_⟩
        · rw [List.length_set]
          exact hj
        · rw [List.getElem_set_ne (fun h => hij h.symm) _]
          exact hjv
    · obtain ⟨n, hn, hvn⟩ := hv
      exact Or.inr ⟨n, List.mem_append_left _ hn, hvn⟩

theorem DCExt_applyPatch {g0 : FGraph} {fresh0 : Nat} {st : IDCState}
    (hext : DCExt g0 fresh0 st) {i : Nat} (hi : i < g0.outputs.length)
    (havoid : ∀ p ∈ st.patches, p.outIndex ≠ i) :
    DCExt g0 fresh0 (applyPatch st i PatchKind.copyPatch) := by
  have hfpn : st.patches.find? (fun p => p.outIndex == i) = none := by
    rw [List.find?_eq_none]
    intro p hp
    simpa using havoid p hp
  have hcur : st.g.outputs.getD i 0 = g0.outputs.getD i 0 := by
    have := hext.outs_eq i hi
    simpa [hfpn] using this
  have hi' : i < st.g.outputs.length := by rw [hext.nlen]; exact hi
  refine ⟨?_, ?_, ?_, ?_, ?_, ?_, ?_, ?_, ?_, ?_⟩
  · exact hext.fin
  · exact hext.freshGe.trans (Nat.le_succ _)
  · show (st.g.outputs.set i st.fresh).length = _
    rw [List.length_set]
    exact hext.nlen
  · show st.g.nodes ++ [dcNode (st.g.outputs.getD i 0) st.fresh] = _
    rw [hext.nodes_eq, hcur]
    show _ = g0.nodes ++ (st.patches ++
      [({ outIndex := i, kind := PatchKind.copyPatch, newVar := st.fresh } : Patch)]).map
        (toDcNode g0)
    rw [List.map_append, List.append_assoc]
    rfl
  · intro i' hi'lt
    show (st.g.outputs.set i st.fresh).getD i' 0 = _
    by_cases hii : i' = i
    · subst hii
      have hset : (st.g.outputs.set i' st.fresh).getD i' 0 = st.fresh := by
        rw [List.getD_eq_getElem?_getD, List.getElem?_set_self hi']
        rfl
      rw [hset]
      show _ = match (st.patches ++
          [({ outIndex := i', kind := PatchKind.copyPatch, newVar := st.fresh } : Patch)]).find?
            (fun p => p.outIndex == i') with
        | some p => p.newVar
        | none => g0.outputs.getD i' 0
      rw [List.find?_append, hfpn, Option.none_or,
        List.find?_cons_of_pos _ (by simp)]
    · have hset : (st.g.outputs.set i st.fresh).getD i' 0 = st.g.outputs.getD i' 0 := by
        rw [List.getD_eq_getElem?_getD, List.getElem?_set_ne (fun h => hii h.symm),
          ← List.getD_eq_getElem?_getD]
      rw [hset]
      have hfind : (st.patches ++
          [({ outIndex := i, kind := PatchKind.copyPatch, newVar := st.fresh } : Patch)]).find?
            (fun p => p.outIndex == i') = st.patches.find? (fun p => p.outIndex == i') := by
        rw [List.find?_append]
        rcases hq : st.patches.find? (fun p => p.outIndex == i') with _ | q
        · rw [hq, Option.none_or, List.find?_eq_none]
          intro p hp
          simp only [List.mem_singleton] at hp
          subst hp
          simp only [beq_iff_eq]
          exact fun h => hii h.symm
        · rw [hq]
          rfl
      rw [show (applyPatch st i PatchKind.copyPatch).patches = st.patches ++
          [({ outIndex := i, kind := PatchKind.copyPatch, newVar := st.fresh } : Patch)] from rfl,
        hfind]
      exact hext.outs_eq i' hi'lt
  · intro p hp
    rcases List.mem_append.mp hp with hp | hp
    · exact hext.patch_idx p hp
    · simp only [List.mem_singleton] at hp
      subst hp
      exact hi
  · intro p hp
    rcases List.mem_append.mp hp with hp | hp
    · exact hext.patch_lb p hp
    · simp only [List.mem_singleton] at hp
      subst hp
      exact hext.freshGe
  · intro p hp
    rcases List.mem_append.mp hp with hp | hp
    · exact (hext.patch_ub p hp).trans (Nat.lt_succ_self _)
    · simp only [List.mem_singleton] at hp
      subst hp
      exact Nat.lt_succ_self _
  · show List.Pairwise _ (st.patches ++
      [({ outIndex := i, kind := PatchKind.copyPatch, newVar := st.fresh } : Patch)])
    rw [List.pairwise_append]
    refine ⟨hext.var_nodup, List.pairwise_singleton _ _, ?_⟩
    intro p hp q hq
    simp only [List.mem_singleton] at hq
    subst hq
    show p.newVar ≠ st.fresh
    have := hext.patch_ub p hp
    omega
  · show List.Pairwise _ (st.patches ++
      [({ outIndex := i, kind := PatchKind.copyPatch, newVar := st.fresh } : Patch)])
    rw [List.pairwise_append]
    refine ⟨hext.idx_nodup, List.pairwise_singleton _ _, ?_⟩
    intro p hp q hq
    simp only [List.mem_singleton] at hq
    subst hq
    exact havoid p hp

/-- Invariant of the first run: from a copy-extension state, processing a
tail of the output indices yields a copy-extension state, grows the
mentioned-variable set, only appends patches for the processed indices, and
certifies `NoAliasAt` for every processed index that ends up unpatched. -/
theorem run1_main (wIn : List SymbolicInput) (wOut : List SymbolicOutput)
    (destroyed : Nat → Bool) (g0 : FGraph) (fresh0 : Nat)
    (HB : ∀ v ∈ mentionedVars g0, v < fresh0) :
    ∀ (l : List Nat) (st st1 : IDCState),
      DCExt g0 fresh0 st →
      (∀ i ∈ l, i < g0.outputs.length) →
      (∀ i ∈ l, ∀ p ∈ st.patches, p.outIndex ≠ i) →
      l.Pairwise (· < ·) →
      (∀ i ∈ l, ∀ j, i < j → j < g0.outputs.length → j ∈ l) →
      (∀ p ∈ st1.patches, p.kind = PatchKind.copyPatch) →
      l.foldlM (fun s i => idcStep wIn wOut destroyed (allGraphInputsList g0)
        (updatedFgraphInputs wIn g0.fInputs) s i) st = .ok st1 →
      DCExt g0 fresh0 st1 ∧
      mentionedVars st.g ⊆ mentionedVars st1.g ∧
      (∃ t, st1.patches = st.patches ++ t ∧ ∀ p ∈ t, p.outIndex ∈ l) ∧
      (∀ i ∈ l, st1.patches.find? (fun p => p.outIndex == i) = none →
        NoAliasAt wIn destroyed g0 (graphFuel st1.g) i) := by
  intro l
  induction l with
  | nil =>
    intro st st1 hext _ _ _ _ _ hfold
    simp only [List.foldlM_nil] at hfold
    injection hfold with hfold
    subst hfold
    exact ⟨hext, subset_rfl, ⟨[], (List.append_nil _).symm, by simp⟩, by simp⟩
  | cons a l ih =>
    intro st st1 hext hlt havoid hpw hup hc hfold
    rw [List.foldlM_cons] at hfold
    cases hstep : idcStep wIn wOut destroyed (allGraphInputsList g0)
        (updatedFgraphInputs wIn g0.fInputs) st a with
    | error e =>
      rw [hstep] at hfold
      exact Except.noConfusion hfold
    | ok st' =>
      rw [hstep] at hfold
      have hfold' : l.foldlM (fun s i => idcStep wIn wOut destroyed
          (allGraphInputsList g0) (updatedFgraphInputs wIn g0.fInputs) s i) st' =
          .ok st1 := hfold
      have ha : a < g0.outputs.length := hlt a (List.mem_cons_self a l)
      have havoid_a : ∀ p ∈ st.patches, p.outIndex ≠ a :=
        fun p hp => havoid a (List.mem_cons_self a l) p hp
      have hpw' := (List.pairwise_cons.mp hpw).2
      have halt := (List.pairwise_cons.mp hpw).1
      have hlt' : ∀ i ∈ l, i < g0.outputs.length :=
        fun i hi => hlt i (List.mem_cons_of_mem a hi)
      have hup' : ∀ i ∈ l, ∀ j, i < j → j < g0.outputs.length → j ∈ l := by
        intro i hi j hij hj
        have hm := hup i (List.mem_cons_of_mem a hi) j hij hj
        rcases List.mem_cons.mp hm with h | h
        · have := halt i hi
          omega
        · exact h
      rcases idcStep_inv hstep with ⟨k, rfl⟩ | ⟨heq, root, halias, hf1, hf2⟩
      · obtain ⟨t2, ht2⟩ := idc_fold_patches wIn wOut destroyed
          (allGraphInputsList g0) (updatedFgraphInputs wIn g0.fInputs) l _ st1 hfold'
        have hpnew_mem : ({ outIndex := a, kind := k, newVar := st.fresh } : Patch)
            ∈ st1.patches := by
          rw [ht2]
          apply List.mem_append_left
          show _ ∈ st.patches ++ [_]
          exact List.mem_append_right _ (List.mem_singleton_self _)
        have hk : k = PatchKind.copyPatch := hc _ hpnew_mem
        subst hk
        have hext' : DCExt g0 fresh0 (applyPatch st a PatchKind.copyPatch) :=
          DCExt_applyPatch hext ha havoid_a
        have havoid' : ∀ i ∈ l, ∀ p ∈ (applyPatch st a PatchKind.copyPatch).patches,
            p.outIndex ≠ i := by
          intro i hi p hp
          rcases List.mem_append.mp hp with hp | hp
          · exact havoid i (List.mem_cons_of_mem a hi) p hp
          · simp only [List.mem_singleton] at hp
            subst hp
            show a ≠ i
            have := halt i hi
            omega
        obtain ⟨hext1, hmen, ⟨t, ht, htl⟩, hfacts⟩ :=
          ih _ st1 hext' hlt' havoid' hpw' hup' hc hfold'
        have haA : a < st.g.outputs.length := by rw [hext.nlen]; exact ha
        refine ⟨hext1, (mentioned_applyPatch st a _ haA).trans hmen, ?_, ?_⟩
        · refine ⟨({ outIndex := a, kind := PatchKind.copyPatch, newVar := st.fresh } : Patch) :: t, ?_, ?_⟩
          · rw [ht, List.append_cons]
            rfl
          · intro p hp
            rcases List.mem_cons.mp hp with rfl | hp
            · show a ∈ a :: l
              exact List.mem_cons_self a l
            · exact List.mem_cons_of_mem a (htl p hp)
        · intro i hi hguard
          rcases List.mem_cons.mp hi with rfl | hi
          · exfalso
            have := List.find?_eq_none.mp hguard _ hpnew_mem
            simp at this
          · exact hfacts i hi hguard
      · rw [heq] at hfold'
        obtain ⟨hext1, hmen, ⟨t, ht, htl⟩, hfacts⟩ :=
          ih st st1 hext hlt' (fun i hi => havoid i (List.mem_cons_of_mem a hi))
            hpw' hup' hc hfold'
        refine ⟨hext1, hmen,
          ⟨t, ht, fun p hp => List.mem_cons_of_mem a (htl p hp)⟩, ?_⟩
        intro i hi hguard
        rcases List.mem_cons.mp hi with rfl | hi
        · have hfpn : st.patches.find? (fun p => p.outIndex == i) = none := by
            rw [List.find?_eq_none]
            intro p hp
            simpa using havoid_a p hp
          have hcur : st.g.outputs.getD i 0 = g0.outputs.getD i 0 := by
            have := hext.outs_eq i ha
            simpa [hfpn] using this
          have hr0 : g0.outputs.getD i 0 < fresh0 := by
            apply HB
            apply mem_mentioned_of_gr_output
            rw [getD_eq_getElem ha]
            exact List.getElem_mem ha
          have halias0 : alias_root g0 (graphFuel st.g) (g0.outputs.getD i 0) =
              .ok root := by
            rw [← alias_root_ext hext HB _ _ hr0, ← hcur]
            exact halias
          have hfuel : graphFuel st.g ≤ graphFuel st1.g := by
            unfold graphFuel
            have := Finset.card_le_card hmen
            omega
          have haliasF : alias_root g0 (graphFuel st1.g) (g0.outputs.getD i 0) =
              .ok root := by
            rw [alias_root_le g0 (graphFuel st.g) _ (by rw [halias0]; simp) _ hfuel]
            exact halias0
          refine ⟨root, haliasF, ?_, ?_⟩
          · intro j hij hj
            have hjl : j ∈ i :: l := hup i (List.mem_cons_self i l) j hij hj
            have hfpj : st.patches.find? (fun p => p.outIndex == j) = none := by
              rw [List.find?_eq_none]
              intro p hp
              simpa using havoid j hjl p hp
            have hcurj : st.g.outputs.getD j 0 = g0.outputs.getD j 0 := by
              have := hext.outs_eq j hj
              simpa [hfpj] using this
            have hmemr : j ∈ List.range' (i + 1)
                (st.g.outputs.length - (i + 1)) := by
              rw [List.mem_range']
              refine ⟨j - (i + 1), ?_, by omega⟩
              rw [hext.nlen]
              omega
            have hnot := List.find?_eq_none.mp hf1 j hmemr
            simp only [decide_eq_true_eq] at hnot
            rw [hcurj, view_tree_set_ext hext root] at hnot
            exact hnot
          · have hpeq : (fun v => !(updatedFgraphInputs wIn g0.fInputs).contains v &&
                decide (v ∈ view_tree_set st.g root) && !destroyed v) =
                (fun v => !(updatedFgraphInputs wIn g0.fInputs).contains v &&
                decide (v ∈ view_tree_set g0 root) && !destroyed v) := by
              funext v
              rw [view_tree_set_ext hext root]
            rw [← hpeq]
            exact hf2
        · exact hfacts i hi hguard

/-- On the final state of an all-copy run, the loop body of a second run
leaves the state untouched at every output index. -/
theorem run2_step_id (wIn : List SymbolicInput) (wOut : List SymbolicOutput)
    (destroyed : Nat → Bool) {g0 : FGraph} {fresh0 : Nat} {st1 : IDCState}
    (HB : ∀ v ∈ mentionedVars g0, v < fresh0)
    (hext : DCExt g0 fresh0 st1)
    (hno : ∀ i, i < g0.outputs.length →
      st1.patches.find? (fun p => p.outIndex == i) = none →
      NoAliasAt wIn destroyed g0 (graphFuel st1.g) i)
    (rs : IDCState) (hrg : rs.g = st1.g)
    (i : Nat) (hi : i < g0.outputs.length) :
    idcStep wIn wOut destroyed (allGraphInputsList st1.g)
      (updatedFgraphInputs wIn st1.g.fInputs) rs i = .ok rs := by
  have hAI := allGIs_ext hext HB
  have hUU := updated_ext hext wIn
  have hlen : rs.g.outputs.length = g0.outputs.length := by
    rw [hrg]
    exact hext.nlen
  rcases hfp : st1.patches.find? (fun p => p.outIndex == i) with _ | p
  · obtain ⟨root, halias0, hlater, hfind0⟩ := hno i hi hfp
    have hcur : rs.g.outputs.getD i 0 = g0.outputs.getD i 0 := by
      rw [hrg]
      have := hext.outs_eq i hi
      simpa [hfp] using this
    have hr0 : g0.outputs.getD i 0 < fresh0 := by
      apply HB
      apply mem_mentioned_of_gr_output
      rw [getD_eq_getElem hi]
      exact List.getElem_mem hi
    have hroot_lt : root < fresh0 := by
      rcases alias_root_ok_cases g0 _ _ _ halias0 with hrr | hm
      · rw [hrr]
        exact hr0
      · exact HB _ hm
    have halias : alias_root rs.g (graphFuel rs.g) (rs.g.outputs.getD i 0) =
        .ok root := by
      rw [hcur, hrg, alias_root_ext hext HB _ _ hr0]
      exact halias0
    have hf1 : (List.range' (i + 1) (rs.g.outputs.length - (i + 1))).find?
        (fun j => decide (rs.g.outputs.getD j 0 ∈ view_tree_set rs.g root)) =
        none := by
      rw [List.find?_eq_none]
      intro j hj
      have hjb : i < j ∧ j < g0.outputs.length := by
        rw [List.mem_range'] at hj
        obtain ⟨d, hd, hjd⟩ := hj
        rw [hlen] at hd
        omega
      simp only [decide_eq_true_eq]
      rw [hrg, view_tree_set_ext hext root]
      rcases hfpj : st1.patches.find? (fun p => p.outIndex == j) with _ | q
      · have hcurj : st1.g.outputs.getD j 0 = g0.outputs.getD j 0 := by
          have := hext.outs_eq j hjb.2
          simpa [hfpj] using this
        rw [hcurj]
        exact hlater j hjb.1 hjb.2
      · have hcurj : st1.g.outputs.getD j 0 = q.newVar := by
          have := hext.outs_eq j hjb.2
          simpa [hfpj] using this
        rw [hcurj]
        intro hq
        have hqlb := hext.patch_lb q (List.mem_of_find?_eq_some hfpj)
        rcases Finset.mem_union.mp (view_tree_subset g0 root hq) with hm | hm
        · have := HB _ hm
          omega
        · simp only [Finset.mem_singleton] at hm
          omega
    have hpeq : (fun v => !(updatedFgraphInputs wIn g0.fInputs).contains v &&
        decide (v ∈ view_tree_set rs.g root) && !destroyed v) =
        (fun v => !(updatedFgraphInputs wIn g0.fInputs).contains v &&
        decide (v ∈ view_tree_set g0 root) && !destroyed v) := by
      funext v
      rw [hrg, view_tree_set_ext hext root]
    rw [hAI, hUU]
    simp only [idcStep, halias, hf1, hpeq, hfind0]
  · have hpmem := List.mem_of_find?_eq_some hfp
    have hpi : p.outIndex = i := by
      have := List.find?_some hfp
      simpa using this
    have hplb := hext.patch_lb p hpmem
    have hcur : rs.g.outputs.getD i 0 = p.newVar := by
      rw [hrg]
      have := hext.outs_eq i hi
      simpa [hfp] using this
    have halias : alias_root rs.g (graphFuel rs.g) (rs.g.outputs.getD i 0) =
        .ok p.newVar := by
      rw [hcur, hrg]
      refine alias_root_patch hext HB hpmem ?_
      unfold graphFuel
      omega
    have htree : view_tree_set rs.g p.newVar = {p.newVar} := by
      rw [hrg, view_tree_set_ext hext]
      exact view_tree_fresh g0 HB hplb
    have hf1 : (List.range' (i + 1) (rs.g.outputs.length - (i + 1))).find?
        (fun j => decide (rs.g.outputs.getD j 0 ∈ view_tree_set rs.g p.newVar)) =
        none := by
      rw [List.find?_eq_none]
      intro j hj
      have hjb : i < j ∧ j < g0.outputs.length := by
        rw [List.mem_range'] at hj
        obtain ⟨d, hd, hjd⟩ := hj
        rw [hlen] at hd
        omega
      simp only [decide_eq_true_eq]
      rw [htree, Finset.mem_singleton, hrg]
      rcases hfpj : st1.patches.find? (fun p => p.outIndex == j) with _ | q
      · have hcurj : st1.g.outputs.getD j 0 = g0.outputs.getD j 0 := by
          have := hext.outs_eq j hjb.2
          simpa [hfpj] using this
        rw [hcurj]
        have hlt : g0.outputs.getD j 0 < fresh0 := by
          apply HB
          apply mem_mentioned_of_gr_output
          rw [getD_eq_getElem hjb.2]
          exact List.getElem_mem hjb.2
        omega
      · have hcurj : st1.g.outputs.getD j 0 = q.newVar := by
          have := hext.outs_eq j hjb.2
          simpa [hfpj] using this
        rw [hcurj]
        have hqmem := List.mem_of_find?_eq_some hfpj
        have hqj : q.outIndex = j := by
          have := List.find?_some hfpj
          simpa using this
        have hne : q ≠ p := by
          intro hqp
          subst hqp
          omega
        have hsym : Symmetric (fun (x y : Patch) => x.newVar ≠ y.newVar) :=
          fun x y h h2 => h h2.symm
        exact List.Pairwise.forall hsym hext.var_nodup hqmem hpmem hne
    have hf2 : (allGraphInputsList g0).find? (fun v =>
        !(updatedFgraphInputs wIn g0.fInputs).contains v &&
          decide (v ∈ view_tree_set rs.g p.newVar) && !destroyed v) = none := by
      rw [List.find?_eq_none]
      intro v hv
      have hvlt : v < fresh0 := by
        apply HB
        refine ancestors_subset_mentioned g0 ?_ (mem_allGIs hv).1
        exact fun a ha => mem_mentioned_of_gr_output ha
      intro hcontra
      simp only [htree, Bool.and_eq_true, decide_eq_true_eq,
        Finset.mem_singleton] at hcontra
      have := hcontra.1.2
      omega
    rw [hAI, hUU]
    simp only [idcStep, halias, hf1, hf2]

theorem run2_fold_id (wIn : List SymbolicInput) (wOut : List SymbolicOutput)
    (destroyed : Nat → Bool) (A U : List Nat) (rs : IDCState) :
    ∀ (l : List Nat),
      (∀ i ∈ l, idcStep wIn wOut destroyed A U rs i = .ok rs) →
      l.foldlM (fun s i => idcStep wIn wOut destroyed A U s i) rs = .ok rs := by
  intro l
  induction l with
  | nil => intro h; rfl
  | cons a l ih =>
    intro h
    rw [List.foldlM_cons, h a (List.mem_cons_self a l)]
    exact ih (fun i hi => h i (List.mem_cons_of_mem a hi))

theorem DCExt_init (g0 : FGraph) (fresh0 : Nat) :
    DCExt g0 fresh0 { g := g0, fresh := fresh0, patches := [] } := by
  refine ⟨rfl, Nat.le_refl _, rfl, by simp, ?_, by simp, by simp, by simp,
    List.Pairwise.nil, List.Pairwise.nil⟩
  intro i _
  rfl

/-- **C9 (amended).** `insert_deepcopy` is not idempotent in general — a view
marker's output is itself still a view of the marked variable, so a second
run re-patches view-patched edges — but it is idempotent on runs that
inserted only deep-copy nodes: if the first run (started with a genuinely
fresh name counter) produced `st1` with every patch a deep copy, a second run
on `st1`'s graph returns that graph and counter unchanged with no patches. -/
theorem insert_deepcopy_idempotent_on_copies
    (wIn : List SymbolicInput) (wOut : List SymbolicOutput) (destroyed : Nat → Bool)
    (g0 : FGraph) (fresh0 : Nat) (st1 : IDCState)
    (HB : ∀ v ∈ mentionedVars g0, v < fresh0)
    (hrun : insert_deepcopy wIn wOut destroyed g0 fresh0 = .ok st1)
    (hc : ∀ p ∈ st1.patches, p.kind = PatchKind.copyPatch) :
    insert_deepcopy wIn wOut destroyed st1.g st1.fresh =
      .ok { g := st1.g, fresh := st1.fresh, patches := [] } := by
  have hrun' : (List.range g0.outputs.length).foldlM
      (fun s i => idcStep wIn wOut destroyed (allGraphInputsList g0)
        (updatedFgraphInputs wIn g0.fInputs) s i)
      { g := g0, fresh := fresh0, patches := [] } = .ok st1 := hrun
  obtain ⟨hext1, hmen, hpat, hfacts⟩ :=
    run1_main wIn wOut destroyed g0 fresh0 HB (List.range g0.outputs.length)
      { g := g0, fresh := fresh0, patches := [] } st1 (DCExt_init g0 fresh0)
      (fun i hi => List.mem_range.mp hi)
      (by intro i _ p hp; exact absurd hp (by simp))
      (List.pairwise_lt_range _)
      (fun i _ j _ hj => List.mem_range.mpr hj)
      hc hrun'
  show (List.range st1.g.outputs.length).foldlM
      (fun s i => idcStep wIn wOut destroyed (allGraphInputsList st1.g)
        (updatedFgraphInputs wIn st1.g.fInputs) s i)
      { g := st1.g, fresh := st1.fresh, patches := [] } = _
  rw [hext1.nlen]
  exact run2_fold_id wIn wOut destroyed _ _ _ _
    (fun i hi => run2_step_id wIn wOut destroyed HB hext1
      (fun i' hi' hg => hfacts i' (List.mem_range.mpr hi') hg)
      { g := st1.g, fresh := st1.fresh, patches := [] } rfl i
      (List.mem_range.mp hi))

/-- On a graph returning the same borrow-permitted input twice, the first run
patches both output edges with view markers; a second run on the already
patched graph patches both output edges again (a view of the input is still a
view of the input), inserting two further view nodes: the pass is not
idempotent. -/
theorem insert_deepcopy_not_idempotent :
    insert_deepcopy [c9In] [c9Out, c9Out] (fun _ => false) c9Graph 10 =
      .ok c9Run1 ∧
    insert_deepcopy [c9In] [c9Out, c9Out] (fun _ => false) c9Run1.g c9Run1.fresh =
      .ok c9Run2 ∧
    c9Run2.patches ≠ [] ∧ c9Run2.g.outputs ≠ c9Run1.g.outputs := by decide

theorem insert_deepcopy_idempotent_on_copies_witness :
    (∀ v ∈ mentionedVars c9WitGraph, v < 10) ∧
    insert_deepcopy [c9WitIn] [c9WitOut, c9WitOut] (fun _ => false) c9WitGraph 10 =
      .ok c9WitRun1 ∧
    (∀ p ∈ c9WitRun1.patches, p.kind = PatchKind.copyPatch) ∧
    insert_deepcopy [c9WitIn] [c9WitOut, c9WitOut] (fun _ => false) c9WitRun1.g
      c9WitRun1.fresh =
      .ok { g := c9WitRun1.g, fresh := c9WitRun1.fresh, patches := [] } :=
  ⟨by decide, by decide, by decide,
    insert_deepcopy_idempotent_on_copies [c9WitIn] [c9WitOut, c9WitOut]
      (fun _ => false) c9WitGraph 10 c9WitRun1 (by decide) (by decide) (by decide)⟩

theorem applyPatch_fInputs (st : IDCState) (i : Nat) (k : PatchKind) :
    (applyPatch st i k).g.fInputs = st.g.fInputs := rfl

theorem idcStep_ok_fInputs {wIn : List SymbolicInput} {wOut : List SymbolicOutput}
    {destroyed : Nat → Bool} {allGIs updated : List Nat} {st : IDCState} {i : Nat}
    {st' : IDCState}
    (h : idcStep wIn wOut destroyed allGIs updated st i = .ok st') :
    st'.g.fInputs = st.g.fInputs := by
  simp only [idcStep] at h
  repeat' split at h
  all_goals (try exact Except.noConfusion h)
  all_goals (injection h with h; subst h; rfl)

/-- The source's loop body and the policy's loop body coincide whenever every
candidate of the input-stage scan is a declared fgraph input of the current
graph: then the source's `if input_j in fgraph.inputs` test is always true and
its constant branch is dead. -/
theorem idcStep_eq_policy (wIn : List SymbolicInput) (wOut : List SymbolicOutput)
    (destroyed : Nat → Bool) (allGIs updated : List Nat) (st : IDCState) (i : Nat)
    (h : ∀ v ∈ allGIs, st.g.fInputs.contains v = true) :
    idcStep wIn wOut destroyed allGIs updated st i =
      idcPolicyStep wIn wOut destroyed allGIs updated st i := by
  simp only [idcStep, idcPolicyStep]
  split <;> try rfl
  split <;> try rfl
  split <;> try rfl
  rename_i v hfind2
  have hv : v ∈ allGIs := List.mem_of_find?_eq_some hfind2
  rw [h v hv]
  simp

theorem idc_fold_eq_policy (wIn : List SymbolicInput) (wOut : List SymbolicOutput)
    (destroyed : Nat → Bool) (allGIs updated : List Nat) :
    ∀ (l : List Nat) (st : IDCState),
      (∀ v ∈ allGIs, st.g.fInputs.contains v = true) →
      l.foldlM (fun s i => idcStep wIn wOut destroyed allGIs updated s i) st =
        l.foldlM (fun s i => idcPolicyStep wIn wOut destroyed allGIs updated s i) st := by
  intro l
  induction l with
  | nil => intro st h; rfl
  | cons a l ih =>
    intro st h
    rw [List.foldlM_cons, List.foldlM_cons,
      ← idcStep_eq_policy wIn wOut destroyed allGIs updated st a h]
    cases hstep : idcStep wIn wOut destroyed allGIs updated st a with
    | error e => rfl
    | ok st' =>
      have hfi := idcStep_ok_fInputs hstep
      exact ih st' (fun v hv => by rw [hfi]; exact h v hv)

/-- On a graph whose single output is a constant leaf — an owner-less
variable that is not a declared fgraph input — with a borrow-permitted
output, the source patches the output edge with a view marker (the constant
branch consults only the output's borrow flag), while the claimed
both-sides-borrow-permitted policy inserts a deep copy: the claim's patch
rule is false on constants. -/
theorem insert_deepcopy_constant_counterexample :
    insert_deepcopy [] [c1CexOut] (fun _ => false) c1CexGraph 10 =
      .ok { g := { fInputs := [], outputs := [10], nodes := [viewNode 0 10] },
            fresh := 11,
            patches := [⟨0, .viewPatch, 10⟩] } ∧
    insert_deepcopy_policy [] [c1CexOut] (fun _ => false) c1CexGraph 10 =
      .ok { g := { fInputs := [], outputs := [10], nodes := [dcNode 0 10] },
            fresh := 11,
            patches := [⟨0, .copyPatch, 10⟩] } := by decide

/-- **C1 (amended).** `insert_deepcopy` implements the claimed policy —
outputs processed in declared order; later-indexed outputs scanned first with
a view marker when both outputs are borrow-permitted and a deep copy
otherwise, stopping at the first hit; otherwise the graph inputs scanned,
skipping updated and destroyed inputs, patching on the first aliasing input
with a view when both the output and that input are borrow-permitted and a
copy otherwise — on every graph whose graph-input leaves are all declared
fgraph inputs.  When the first aliasing input found is a `Constant` (an
owner-less leaf that is not a declared fgraph input), there is no wrapped
input to consult, and the view-versus-copy decision uses the output's borrow
flag alone: a view marker when the output is borrow-permitted, a deep copy
otherwise. -/
theorem insert_deepcopy_follows_policy :
    (∀ (wIn : List SymbolicInput) (wOut : List SymbolicOutput)
       (destroyed : Nat → Bool) (g : FGraph) (fresh : Nat),
      (∀ v ∈ allGraphInputsList g, v ∈ g.fInputs) →
      insert_deepcopy wIn wOut destroyed g fresh =
        insert_deepcopy_policy wIn wOut destroyed g fresh) ∧
    (∀ (wIn : List SymbolicInput) (wOut : List SymbolicOutput)
       (destroyed : Nat → Bool) (A U : List Nat) (st : IDCState) (i root v : Nat),
      alias_root st.g (graphFuel st.g) (st.g.outputs.getD i 0) = .ok root →
      (List.range' (i + 1) (st.g.outputs.length - (i + 1))).find?
        (fun j => decide (st.g.outputs.getD j 0 ∈ view_tree_set st.g root)) =
        none →
      A.find? (fun u => !U.contains u && decide (u ∈ view_tree_set st.g root) &&
        !destroyed u) = some v →
      st.g.fInputs.contains v = false →
      idcStep wIn wOut destroyed A U st i =
        .ok (applyPatch st i (if (wOut.getD i dummySymbolicOutput).borrow then
          PatchKind.viewPatch else PatchKind.copyPatch))) := by
  constructor
  · intro wIn wOut destroyed g fresh h
    unfold insert_deepcopy insert_deepcopy_policy
    exact idc_fold_eq_policy wIn wOut destroyed _ _ _ _
      (fun v hv => by simpa using h v hv)
  · intro wIn wOut destroyed A U st i root v h1 h2 h3 h4
    simp only [idcStep, h1, h2, h3]
    rw [if_neg (by simpa using h4)]
    by_cases hb : (wOut.getD i dummySymbolicOutput).borrow = true
    · rw [if_pos hb, if_pos hb]
    · rw [if_neg hb, if_neg hb]

theorem insert_deepcopy_follows_policy_witness :
    ((∀ v ∈ allGraphInputsList c1Graph, v ∈ c1Graph.fInputs) ∧
      insert_deepcopy [c1In] [c1Out, c1Out] (fun _ => false) c1Graph 10 =
        insert_deepcopy_policy [c1In] [c1Out, c1Out] (fun _ => false) c1Graph 10) ∧
    ((⟨c1CexGraph, 10, []⟩ : IDCState).g.fInputs.contains 0 = false ∧
      idcStep [] [c1CexOut] (fun _ => false) [0] [] ⟨c1CexGraph, 10, []⟩ 0 =
        .ok (applyPatch ⟨c1CexGraph, 10, []⟩ 0
          (if ([c1CexOut].getD 0 dummySymbolicOutput).borrow then
            PatchKind.viewPatch else PatchKind.copyPatch))) :=
  ⟨⟨by decide,
    insert_deepcopy_follows_policy.1 [c1In] [c1Out, c1Out] (fun _ => false)
      c1Graph 10 (by decide)⟩,
   ⟨by decide,
    insert_deepcopy_follows_policy.2 [] [c1CexOut] (fun _ => false) [0] []
      ⟨c1CexGraph, 10, []⟩ 0 0 0 (by decide) (by decide) (by decide)
      (by decide)⟩⟩

end PyTensor
